import Mathlib

/-!
# Verification of the mutable-partition engine (`src/src/MutableVertexPartition.cpp`)

A shallow embedding of the `MutableVertexPartition` data structure in Lean 4.
Machine doubles are modelled as exact rationals, `size_t` counters as `ℕ`
(with the one signed cast in `move_node` modelled through `ℤ`), C++ `std::vector`
as `List`, and `std::unordered_set` as `Finset ℕ`.  Exceptions are modelled with
`Except`; where the C++ object survives a `throw` in a mutated state, the error
value carries that state.

The graph is the external read-only collaborator; it is embedded as a structure
of accessor functions mirroring the interface the partition code calls.
-/

set_option maxHeartbeats 1000000

namespace LeidenSpec

/-! ## Small list helpers (the `+=` / `-=` on indexed vectors of the C++ code) -/

/-- `l[i] += x` on a rational vector; out-of-range writes are dropped
(`List.set` is a no-op past the end), matching in-bounds C++ use. -/
def addAt (l : List ℚ) (i : ℕ) (x : ℚ) : List ℚ := l.set i (l.getD i 0 + x)

/-- `l[i] += x` on a `size_t` vector. -/
def addAtN (l : List ℕ) (i : ℕ) (x : ℕ) : List ℕ := l.set i (l.getD i 0 + x)

/-- `l[i] -= x` on a `size_t` vector (in-bounds use never underflows). -/
def subAtN (l : List ℕ) (i : ℕ) (x : ℕ) : List ℕ := l.set i (l.getD i 0 - x)

/-- `l[i].f()` in place on the vector of community sets. -/
def updAt (l : List (Finset ℕ)) (i : ℕ) (f : Finset ℕ → Finset ℕ) : List (Finset ℕ) :=
  l.set i (f (l.getD i ∅))

/-- Remove the last occurrence of `x`: the reverse-iterator search-and-erase of
`move_node` on `_empty_communities`.  When `x` is absent the C++ code erases an
invalid iterator (`std::next(rend()).base()`) — undefined behaviour.  This
function gives the absent case a benign no-op value only so that `move_node`
stays total; `move_node_defined` states exactly when the C++ erase is defined,
the corrected claims exhibit reachable valid-argument inputs violating it, and
the amended theorems are scoped (pool-consistent states) so that the search
always finds `x`. -/
def removeLastOcc (l : List ℕ) (x : ℕ) : List ℕ := (l.reverse.erase x).reverse

/-- `std::vector::resize(n, 0)` / `resize(n)`: truncate or pad with zeros. -/
def resizeQ (l : List ℚ) (n : ℕ) : List ℚ := l.take n ++ List.replicate (n - l.length) 0

/-- `std::vector<size_t>::resize(n)`: truncate or pad with zeros. -/
def resizeN (l : List ℕ) (n : ℕ) : List ℕ := l.take n ++ List.replicate (n - l.length) 0

/-! ## The graph provider (external, read-only) -/

/-- `igraph_neimode_t`: the three directions. -/
inductive NeighMode where
  | modeOut
  | modeIn
  | modeAll
deriving DecidableEq

/-- The read-only graph interface consumed by the partition code.
`neighOut v` / `neighIn v` / `neighAll v` return the incident `(neighbour, edge)`
pairs of `get_neighbours` / `get_neighbour_edges` zipped together; in an
undirected graph a self-loop appears twice in each of these lists (the igraph
convention the source code comments rely on). -/
structure Graph where
  n : ℕ
  directed : Bool
  nodeSize : ℕ → ℕ
  edgeWeight : ℕ → ℚ
  neighOut : ℕ → List (ℕ × ℕ)
  neighIn : ℕ → List (ℕ × ℕ)
  neighAll : ℕ → List (ℕ × ℕ)

/-- `get_neighbours(v, mode)` zipped with `get_neighbour_edges(v, mode)`. -/
def Graph.neigh (g : Graph) (mode : NeighMode) (v : ℕ) : List (ℕ × ℕ) :=
  match mode with
  | .modeOut => g.neighOut v
  | .modeIn => g.neighIn v
  | .modeAll => g.neighAll v

/-- Modelled from the spec: `Graph::possible_edges` is part of the external graph
provider, whose source is not under review; §6 of the spec fixes its contract as
the direction-aware combinatorial bound, `n·(n−1)` for a directed group and
`n·(n−1)/2` for an undirected one. -/
def Graph.possible_edges (g : Graph) (k : ℕ) : ℕ :=
  if g.directed then k * (k - 1) else k * (k - 1) / 2

/-! ## Partition state -/

/-- The state of a `MutableVertexPartition`: field names follow the C++ members
(without the leading underscore).  `membership` is `_membership`, `community`
the vector of member sets, `csizes` is `_csize`, the three `total_weight_*_comm`
vectors and the two global scalars are the aggregate statistics, and the nine
cache fields are the per-direction single-slot memoization. -/
structure Partition where
  membership : List ℕ
  community : List (Finset ℕ)
  csizes : List ℕ
  total_weight_in_comm : List ℚ
  total_weight_from_comm : List ℚ
  total_weight_to_comm : List ℚ
  total_weight_in_all_comms : ℚ
  total_possible_edges_in_all_comms : ℚ
  empty_communities : List ℕ
  current_node_cache_community_from : ℕ
  current_node_cache_community_to : ℕ
  current_node_cache_community_all : ℕ
  cached_weight_from_community : List ℚ
  cached_weight_to_community : List ℚ
  cached_weight_all_community : List ℚ
  cached_neigh_comms_from : List ℕ
  cached_neigh_comms_to : List ℕ
  cached_neigh_comms_all : List ℕ
deriving DecidableEq

/-- A freshly constructed object before `init_admin` runs: all vectors empty. -/
def emptyPartition : Partition :=
  ⟨[], [], [], [], [], [], 0, 0, [], 0, 0, 0, [], [], [], [], [], []⟩

/-- `MutableVertexPartition::csize(comm)`: bounds-checked community size,
returning 0 beyond the allocated slots. -/
def Partition.csize (s : Partition) (comm : ℕ) : ℕ := s.csizes.getD comm 0

/-- `MutableVertexPartition::nb_communities()`. -/
def Partition.nb_communities (s : Partition) : ℕ := s.community.length

/-- The error taxonomy of §7. -/
inductive PartitionError where
  | invalidArgument
  | capacityExceeded
  | invalidDirection
deriving DecidableEq

/-! ## `init_admin` -/

/-- The first loop of `init_admin`: number of community slots, assuming the ids
are used consecutively (`nb_comms = max membership[i] + 1`). -/
def nbComms (m : List ℕ) : ℕ := m.foldl (fun a c => max a (c + 1)) 0

/-- The community-set part of the vertex loop of `init_admin`:
`community[membership[v]].insert(v)` for each vertex. -/
def initCommunity (m : List ℕ) (n nb : ℕ) : List (Finset ℕ) :=
  (List.range n).foldl (fun l v => updAt l (m.getD v 0) (insert v)) (List.replicate nb ∅)

/-- The community-size part of the vertex loop of `init_admin`:
`_csize[membership[v]] += node_size(v)`. -/
def initCsize (g : Graph) (m : List ℕ) (nb : ℕ) : List ℕ :=
  (List.range g.n).foldl (fun l v => addAtN l (m.getD v 0) (g.nodeSize v)) (List.replicate nb 0)

/-- The aggregate-weight vectors built by `init_admin`. -/
structure InitW where
  wIn : List ℚ
  wFrom : List ℚ
  wTo : List ℚ
  wInAll : ℚ
deriving DecidableEq

/-- One outgoing edge `(u, e)` of vertex `v` (community `vc`) inside the
`init_admin` edge loop: add `w` to `from[vc]` and `to[membership[u]]`, and when
the edge is internal add `w` (halved if undirected) to `in[vc]` and the global
total. -/
def initEdgeStep (g : Graph) (m : List ℕ) (vc : ℕ) (acc : InitW) (ue : ℕ × ℕ) : InitW :=
  let u := ue.1
  let e := ue.2
  let uc := m.getD u 0
  let w := g.edgeWeight e
  let acc := { acc with wFrom := addAt acc.wFrom vc w }
  let acc := { acc with wTo := addAt acc.wTo uc w }
  if vc = uc then
    let w2 := if g.directed then w else w / 2
    { acc with wIn := addAt acc.wIn vc w2, wInAll := acc.wInAll + w2 }
  else acc

/-- The edge-weight part of the vertex loop of `init_admin`: for each vertex,
walk its outgoing incident edges. -/
def initWeights (g : Graph) (m : List ℕ) (nb : ℕ) : InitW :=
  (List.range g.n).foldl
    (fun acc v => (g.neighOut v).foldl (initEdgeStep g m (m.getD v 0)) acc)
    ⟨List.replicate nb 0, List.replicate nb 0, List.replicate nb 0, 0⟩

/-- The final loop of `init_admin`: `total_possible_edges` as the sum of
`possible_edges(csize(c))` over all slots. -/
def initTotalPossible (g : Graph) (cs : List ℕ) (nb : ℕ) : ℚ :=
  (List.range nb).foldl (fun acc c => acc + (g.possible_edges (cs.getD c 0) : ℚ)) 0

/-- `MutableVertexPartition::init_admin()`, rebuilding every §3 structure from
the membership vector `m`.  `prev` is the object state before the call:
`init_admin` resizes (but does not clear) the three cached-weight vectors and
leaves `_empty_communities` and the three `_cached_neigh_comms_*` lists
untouched, so those fields carry over. -/
def init_admin (g : Graph) (m : List ℕ) (prev : Partition) : Partition :=
  let n := g.n
  let nb := nbComms m
  let w := initWeights g m nb
  let cs := initCsize g m nb
  { membership := m
    community := initCommunity m n nb
    csizes := cs
    total_weight_in_comm := w.wIn
    total_weight_from_comm := w.wFrom
    total_weight_to_comm := w.wTo
    total_weight_in_all_comms := w.wInAll
    total_possible_edges_in_all_comms := initTotalPossible g cs nb
    empty_communities := prev.empty_communities
    current_node_cache_community_from := n + 1
    current_node_cache_community_to := n + 1
    current_node_cache_community_all := n + 1
    cached_weight_from_community := resizeQ prev.cached_weight_from_community n
    cached_weight_to_community := resizeQ prev.cached_weight_to_community n
    cached_weight_all_community := resizeQ prev.cached_weight_all_community n
    cached_neigh_comms_from := prev.cached_neigh_comms_from
    cached_neigh_comms_to := prev.cached_neigh_comms_to
    cached_neigh_comms_all := prev.cached_neigh_comms_all }

/-- The validating constructor `MutableVertexPartition(graph, membership)`:
throws `InvalidArgument` when the membership vector length differs from the
vertex count, before any state is built; otherwise runs `init_admin` on a fresh
object. -/
def mkPartition (g : Graph) (m : List ℕ) : Except PartitionError Partition :=
  if m.length ≠ g.n then .error .invalidArgument
  else .ok (init_admin g m emptyPartition)

/-! ## `move_node` -/

/-- One incident edge `(u, e)` inside the `move_node` edge loop (`isOut` selects
the `IGRAPH_OUT` or `IGRAPH_IN` pass): move the directional weight of the edge
from `oldComm` to `newComm`, then move the internal contribution
`w / (directed ? 1 : 2) / (self-loop ? 2 : 1)` out of `oldComm` and/or into
`newComm`.  `s.membership` is still the pre-move assignment here (the vector is
only rewritten at the very end of `move_node`). -/
def moveEdgeStep (g : Graph) (v oldComm newComm : ℕ) (isOut : Bool)
    (s : Partition) (ue : ℕ × ℕ) : Partition :=
  let u := ue.1
  let e := ue.2
  let uComm := s.membership.getD u 0
  let w := g.edgeWeight e
  let s :=
    if isOut then
      { s with total_weight_from_comm :=
          addAt (addAt s.total_weight_from_comm oldComm (-w)) newComm w }
    else
      { s with total_weight_to_comm :=
          addAt (addAt s.total_weight_to_comm oldComm (-w)) newComm w }
  let intW := w / (if g.directed then 1 else 2) / (if u = v then 2 else 1)
  let s :=
    if oldComm = uComm then
      { s with total_weight_in_comm := addAt s.total_weight_in_comm oldComm (-intW)
               total_weight_in_all_comms := s.total_weight_in_all_comms - intW }
    else s
  if newComm = uComm ∨ u = v then
    { s with total_weight_in_comm := addAt s.total_weight_in_comm newComm intW
             total_weight_in_all_comms := s.total_weight_in_all_comms + intW }
  else s

/-- `MutableVertexPartition::move_node(v, new_comm)`. -/
def move_node (g : Graph) (s : Partition) (v newComm : ℕ) : Partition :=
  let nodeSz := g.nodeSize v
  let oldComm := s.membership.getD v 0
  -- step 1: closed-form delta of total_possible_edges, before the sizes change
  let s : Partition :=
    if newComm ≠ oldComm then
      let delta : ℚ := 2 * (nodeSz : ℚ) *
          (((s.csizes.getD newComm 0 : ℤ) - (s.csizes.getD oldComm 0 : ℤ) + (nodeSz : ℤ) : ℤ) : ℚ) /
          (2 - (if g.directed then 1 else 0))
      { s with total_possible_edges_in_all_comms :=
          s.total_possible_edges_in_all_comms + delta }
    else s
  -- step 2: remove from the old community
  let s : Partition := { s with
    community := updAt s.community oldComm (fun t => t.erase v)
    csizes := subAtN s.csizes oldComm nodeSz }
  let s : Partition :=
    if s.csizes.getD oldComm 0 = 0 then
      { s with empty_communities := s.empty_communities ++ [oldComm] }
    else s
  -- step 3: pull new_comm out of the empty pool (before its size is bumped)
  let s : Partition :=
    if s.csizes.getD newComm 0 = 0 then
      { s with empty_communities := removeLastOcc s.empty_communities newComm }
    else s
  let s : Partition := { s with
    community := updAt s.community newComm (insert v)
    csizes := addAtN s.csizes newComm nodeSz }
  -- step 4: the two directional edge loops
  let s := (g.neighOut v).foldl (moveEdgeStep g v oldComm newComm true) s
  let s := (g.neighIn v).foldl (moveEdgeStep g v oldComm newComm false) s
  -- step 5: rewrite the membership entry
  { s with membership := s.membership.set v newComm }

/-- The condition under which the pool update of `move_node` is defined: at
the point of the step-3 erase (after the old community size was decremented,
after the old community was pushed if its size reached zero), if the new
community's size reads zero then the reverse search over `_empty_communities`
must find `new_comm`.  When the search fails, the C++ source erases
`std::next(rend()).base()` — an invalid iterator, undefined behaviour. -/
def move_node_defined (g : Graph) (s : Partition) (v newComm : ℕ) : Prop :=
  let oldComm := s.membership.getD v 0
  let cs1 := subAtN s.csizes oldComm (g.nodeSize v)
  let pool1 :=
    if cs1.getD oldComm 0 = 0 then s.empty_communities ++ [oldComm]
    else s.empty_communities
  cs1.getD newComm 0 = 0 → newComm ∈ pool1

instance (g : Graph) (s : Partition) (v newComm : ℕ) :
    Decidable (move_node_defined g s v newComm) := by
  unfold move_node_defined
  infer_instance

/-! ## Empty-community pool -/

/-- `MutableVertexPartition::add_empty_community()`.  The C++ code pushes the
new community slot *first* and only then checks the capacity; when it throws,
the object keeps the extended `community` vector, so the error value carries
that mutated state. -/
def add_empty_community (g : Graph) (s : Partition) : Except Partition (Partition × ℕ) :=
  let community2 := s.community ++ [(∅ : Finset ℕ)]
  let nb := community2.length
  if g.n < nb then
    .error { s with community := community2 }
  else
    let newComm := nb - 1
    .ok ({ s with
      community := community2
      csizes := (resizeN s.csizes nb).set newComm 0
      total_weight_in_comm := (resizeQ s.total_weight_in_comm nb).set newComm 0
      total_weight_from_comm := (resizeQ s.total_weight_from_comm nb).set newComm 0
      total_weight_to_comm := (resizeQ s.total_weight_to_comm nb).set newComm 0
      empty_communities := s.empty_communities ++ [newComm] }, newComm)

/-- `MutableVertexPartition::get_empty_community()`: reuse the back of the pool,
minting a fresh slot when the pool is empty. -/
def get_empty_community (g : Graph) (s : Partition) : Except Partition (Partition × ℕ) :=
  if s.empty_communities.isEmpty then
    match add_empty_community g s with
    | .error s2 => .error s2
    | .ok (s2, _) => .ok (s2, s2.empty_communities.getLastD 0)
  else .ok (s, s.empty_communities.getLastD 0)

/-! ## Renumbering -/

/-- Modelled from the spec: the comparator `pairCompareReverseSecond` used by
`renumber_communities()` lives outside the source under review; §4.5 fixes the
order as descending community size with ties broken by original id order, i.e.
`(size, id)` pairs sorted by decreasing first component, increasing second. -/
def pairCompareReverseSecond (p q : ℕ × ℕ) : Prop :=
  q.1 < p.1 ∨ (p.1 = q.1 ∧ p.2 ≤ q.2)

instance : DecidableRel pairCompareReverseSecond := fun p q => by
  unfold pairCompareReverseSecond; infer_instance

instance : IsTotal (ℕ × ℕ) pairCompareReverseSecond where
  total p q := by
    unfold pairCompareReverseSecond
    rcases Nat.lt_trichotomy p.1 q.1 with h | h | h
    · exact Or.inr (Or.inl h)
    · rcases Nat.le_total p.2 q.2 with h2 | h2
      · exact Or.inl (Or.inr ⟨h, h2⟩)
      · exact Or.inr (Or.inr ⟨h.symm, h2⟩)
    · exact Or.inl (Or.inl h)

instance : IsTrans (ℕ × ℕ) pairCompareReverseSecond where
  trans p q r := by
    unfold pairCompareReverseSecond
    rintro (h1 | ⟨h1, h1'⟩) (h2 | ⟨h2, h2'⟩)
    · exact Or.inl (h2.trans h1)
    · exact Or.inl (h2 ▸ h1)
    · exact Or.inl (h1 ▸ h2)
    · exact Or.inr ⟨h1.trans h2, h1'.trans h2'⟩

instance : IsAntisymm (ℕ × ℕ) pairCompareReverseSecond where
  antisymm p q := by
    unfold pairCompareReverseSecond
    rintro (h1 | ⟨h1, h1'⟩) (h2 | ⟨h2, h2'⟩) <;>
      first
        | exact absurd h1 (by omega)
        | exact absurd h2 (by omega)
        | exact Prod.ext (by omega) (Nat.le_antisymm h1' h2')

/-- The `new_comm_id` table of `renumber_communities()`: position `i` of the
sorted `(size, id)` list maps that id to new id `i`. -/
def newCommIdTable (sorted : List (ℕ × ℕ)) (nb : ℕ) : List ℕ :=
  sorted.enum.foldl (fun l q => l.set q.2.2 q.1) (List.replicate nb 0)

/-- `MutableVertexPartition::renumber_communities()`: sort communities by
descending size, relabel membership through `new_comm_id`, and re-run
`init_admin`. -/
def renumber_communities (g : Graph) (s : Partition) : Partition :=
  let nb := s.nb_communities
  let csizes := (List.range nb).map (fun i => (s.csize i, i))
  let sorted := List.insertionSort pairCompareReverseSecond csizes
  let tbl := newCommIdTable sorted nb
  let m2 := s.membership.map (fun c => tbl.getD c 0)
  init_admin g m2 s

/-- `MutableVertexPartition::renumber_communities(new_membership)`: overwrite
`membership[i] = new_membership[i]` for every vertex and re-run `init_admin`.
There is no length check; reading past the end of a too-short vector is
undefined behaviour in the C++ source, modelled as `none`. -/
def renumber_communities_map (g : Graph) (s : Partition) (m : List ℕ) : Option Partition :=
  if g.n ≤ m.length then
    some (init_admin g ((List.range g.n).map (fun i => m.getD i 0)) s)
  else none

/-! ## Neighbour-community weight cache -/

/-- The cheap invalidation of `cache_neigh_communities`: zero only the entries
recorded in the previous occupant's touched-community list. -/
def cacheResetZero (weights : List ℚ) (neighs : List ℕ) : List ℚ :=
  neighs.foldl (fun l c => l.set c 0) weights

/-- One incident edge inside `cache_neigh_communities`: accumulate its weight
(halved for an undirected self-loop) on the neighbour's community, recording
the community in the touched list whenever the entry is nonzero afterwards. -/
def cacheAccumStep (g : Graph) (m : List ℕ) (v : ℕ)
    (acc : List ℚ × List ℕ) (ue : ℕ × ℕ) : List ℚ × List ℕ :=
  let u := ue.1
  let e := ue.2
  let comm := m.getD u 0
  let w0 := g.edgeWeight e
  let w := if u = v ∧ g.directed = false then w0 / 2 else w0
  let weights := addAt acc.1 comm w
  if weights.getD comm 0 ≠ 0 then (weights, acc.2 ++ [comm]) else (weights, acc.2)

/-- The body of `cache_neigh_communities` on the selected
(weight vector, touched list) pair. -/
def cacheFill (g : Graph) (m : List ℕ) (v : ℕ) (mode : NeighMode)
    (weights : List ℚ) (neighs : List ℕ) : List ℚ × List ℕ :=
  (g.neigh mode v).foldl (cacheAccumStep g m v) (cacheResetZero weights neighs, [])

/-- `MutableVertexPartition::cache_neigh_communities(v, mode)`: dispatch on the
direction and rebuild that direction's cache pair. -/
def cache_neigh_communities (g : Graph) (s : Partition) (v : ℕ) (mode : NeighMode) : Partition :=
  match mode with
  | .modeIn =>
    let r := cacheFill g s.membership v .modeIn s.cached_weight_from_community s.cached_neigh_comms_from
    { s with cached_weight_from_community := r.1, cached_neigh_comms_from := r.2 }
  | .modeOut =>
    let r := cacheFill g s.membership v .modeOut s.cached_weight_to_community s.cached_neigh_comms_to
    { s with cached_weight_to_community := r.1, cached_neigh_comms_to := r.2 }
  | .modeAll =>
    let r := cacheFill g s.membership v .modeAll s.cached_weight_all_community s.cached_neigh_comms_all
    { s with cached_weight_all_community := r.1, cached_neigh_comms_all := r.2 }

/-- `MutableVertexPartition::weight_to_comm(v, comm)`: refill the outgoing cache
when the marker differs from `v`, then read the entry.  The C++ read
`_cached_weight_to_community[comm]` carries no bounds check; the model returns
`none` exactly when that read would be out of bounds. -/
def weight_to_comm (g : Graph) (s : Partition) (v comm : ℕ) : Option ℚ × Partition :=
  let s2 :=
    if s.current_node_cache_community_to ≠ v then
      { cache_neigh_communities g s v .modeOut with current_node_cache_community_to := v }
    else s
  (s2.cached_weight_to_community[comm]?, s2)

/-- `MutableVertexPartition::weight_from_comm(v, comm)`: the incoming analogue. -/
def weight_from_comm (g : Graph) (s : Partition) (v comm : ℕ) : Option ℚ × Partition :=
  let s2 :=
    if s.current_node_cache_community_from ≠ v then
      { cache_neigh_communities g s v .modeIn with current_node_cache_community_from := v }
    else s
  (s2.cached_weight_from_community[comm]?, s2)

/-! ## Basic lemmas about the list helpers -/

theorem getD_set_self {α : Type} (l : List α) (i : ℕ) (d a : α) (h : i < l.length) :
    (l.set i a).getD i d = a := by
  induction l generalizing i with
  | nil => simp at h
  | cons x xs ih =>
    cases i with
    | zero => rfl
    | succ j => exact ih j (by simpa using h)

theorem getD_set_ne {α : Type} (l : List α) {i j : ℕ} (d : α) (a : α) (h : i ≠ j) :
    (l.set i a).getD j d = l.getD j d := by
  induction l generalizing i j with
  | nil => rfl
  | cons x xs ih =>
    cases i with
    | zero =>
      cases j with
      | zero => exact absurd rfl h
      | succ j2 => rfl
    | succ i2 =>
      cases j with
      | zero => rfl
      | succ j2 => exact ih (fun hc => h (by omega))

theorem set_getD_self {α : Type} (l : List α) (i : ℕ) (d : α) :
    l.set i (l.getD i d) = l := by
  induction l generalizing i with
  | nil => rfl
  | cons x xs ih =>
    cases i with
    | zero => rfl
    | succ j => simpa using ih j

theorem set_of_length_le {α : Type} (l : List α) {i : ℕ} (h : l.length ≤ i) (a : α) :
    l.set i a = l := by
  induction l generalizing i with
  | nil => rfl
  | cons x xs ih =>
    cases i with
    | zero => simp at h
    | succ j => simpa using ih (by simpa using h)

theorem getD_of_length_le {α : Type} (l : List α) {i : ℕ} (h : l.length ≤ i) (d : α) :
    l.getD i d = d := by
  induction l generalizing i with
  | nil => rfl
  | cons x xs ih =>
    cases i with
    | zero => simp at h
    | succ j => exact ih (by simpa using h)

@[simp] theorem length_addAt (l : List ℚ) (i : ℕ) (x : ℚ) :
    (addAt l i x).length = l.length := by simp [addAt]

@[simp] theorem length_addAtN (l : List ℕ) (i : ℕ) (x : ℕ) :
    (addAtN l i x).length = l.length := by simp [addAtN]

@[simp] theorem length_subAtN (l : List ℕ) (i : ℕ) (x : ℕ) :
    (subAtN l i x).length = l.length := by simp [subAtN]

@[simp] theorem length_updAt (l : List (Finset ℕ)) (i : ℕ) (f : Finset ℕ → Finset ℕ) :
    (updAt l i f).length = l.length := by simp [updAt]

theorem getD_addAt (l : List ℚ) (i j : ℕ) (x : ℚ) :
    (addAt l i x).getD j 0 = l.getD j 0 + (if j = i ∧ j < l.length then x else 0) := by
  by_cases hij : i = j
  · subst hij
    by_cases h : i < l.length
    · rw [addAt, getD_set_self _ _ _ _ h]
      simp [h]
    · rw [addAt, set_of_length_le _ (by omega)]
      simp [h]
  · rw [addAt, getD_set_ne _ _ _ hij]
    have h2 : ¬ (j = i ∧ j < l.length) := fun hc => hij hc.1.symm
    simp [h2]

theorem getD_addAtN (l : List ℕ) (i j : ℕ) (x : ℕ) :
    (addAtN l i x).getD j 0 = l.getD j 0 + (if j = i ∧ j < l.length then x else 0) := by
  by_cases hij : i = j
  · subst hij
    by_cases h : i < l.length
    · rw [addAtN, getD_set_self _ _ _ _ h]
      simp [h]
    · rw [addAtN, set_of_length_le _ (by omega)]
      simp [h]
  · rw [addAtN, getD_set_ne _ _ _ hij]
    have h2 : ¬ (j = i ∧ j < l.length) := fun hc => hij hc.1.symm
    simp [h2]

theorem getD_subAtN (l : List ℕ) (i j : ℕ) (x : ℕ) :
    (subAtN l i x).getD j 0 = l.getD j 0 - (if j = i ∧ j < l.length then x else 0) := by
  by_cases hij : i = j
  · subst hij
    by_cases h : i < l.length
    · rw [subAtN, getD_set_self _ _ _ _ h]
      simp [h]
    · rw [subAtN, set_of_length_le _ (by omega)]
      simp [h]
  · rw [subAtN, getD_set_ne _ _ _ hij]
    have h2 : ¬ (j = i ∧ j < l.length) := fun hc => hij hc.1.symm
    simp [h2]

theorem getD_updAt (l : List (Finset ℕ)) (i j : ℕ) (f : Finset ℕ → Finset ℕ) :
    (updAt l i f).getD j ∅ =
      if j = i ∧ j < l.length then f (l.getD j ∅) else l.getD j ∅ := by
  by_cases hij : i = j
  · subst hij
    by_cases h : i < l.length
    · rw [updAt, getD_set_self _ _ _ _ h]
      simp [h]
    · rw [updAt, set_of_length_le _ (by omega)]
      simp [h]
  · rw [updAt, getD_set_ne _ _ _ hij]
    have h2 : ¬ (j = i ∧ j < l.length) := fun hc => hij hc.1.symm
    simp [h2]

theorem addAt_of_length_le (l : List ℚ) {i : ℕ} (h : l.length ≤ i) (x : ℚ) :
    addAt l i x = l := by
  rw [addAt, set_of_length_le _ h]

theorem addAt_zero (l : List ℚ) (i : ℕ) : addAt l i 0 = l := by
  rw [addAt, add_zero, set_getD_self]

theorem addAt_addAt_same (l : List ℚ) (i : ℕ) (x y : ℚ) :
    addAt (addAt l i x) i y = addAt l i (x + y) := by
  by_cases h : i < l.length
  · unfold addAt
    rw [getD_set_self _ _ _ _ h, List.set_set]
    ring_nf
  · have h1 : l.length ≤ i := by omega
    have h2 : (addAt l i x).length ≤ i := by rw [length_addAt]; exact h1
    rw [addAt_of_length_le _ h2, addAt_of_length_le _ h1, addAt_of_length_le _ h1]

theorem addAt_comm (l : List ℚ) {i j : ℕ} (x y : ℚ) (h : i ≠ j) :
    addAt (addAt l i x) j y = addAt (addAt l j y) i x := by
  unfold addAt
  rw [getD_set_ne _ _ _ h, getD_set_ne _ _ _ (Ne.symm h), List.set_comm _ _ _ h]

theorem removeLastOcc_append_self (l : List ℕ) (x : ℕ) :
    removeLastOcc (l ++ [x]) x = l := by
  simp [removeLastOcc, List.reverse_append]

theorem nodup_removeLastOcc {l : List ℕ} (x : ℕ) (h : l.Nodup) :
    (removeLastOcc l x).Nodup := by
  simp only [removeLastOcc, List.nodup_reverse]
  exact (List.nodup_reverse.2 h).erase x

theorem mem_removeLastOcc_of_nodup {l : List ℕ} (h : l.Nodup) (x y : ℕ) :
    y ∈ removeLastOcc l x ↔ y ∈ l ∧ y ≠ x := by
  simp only [removeLastOcc, List.mem_reverse]
  rw [(List.nodup_reverse.2 h).mem_erase_iff]
  simp [List.mem_reverse, and_comm]

/-! ## `nbComms` -/

theorem foldl_max_le_iff (m : List ℕ) (a K : ℕ) :
    m.foldl (fun b c => max b (c + 1)) a ≤ K ↔ a ≤ K ∧ ∀ x ∈ m, x < K := by
  induction m generalizing a with
  | nil => simp
  | cons y ys ih =>
    rw [List.foldl_cons, ih]
    simp only [Nat.max_le, List.mem_cons]
    constructor
    · rintro ⟨⟨h1, h2⟩, h3⟩
      refine ⟨h1, fun x hx => ?_⟩
      rcases hx with rfl | hx
      · omega
      · exact h3 x hx
    · rintro ⟨h1, h2⟩
      exact ⟨⟨h1, h2 y (Or.inl rfl)⟩, fun x hx => h2 x (Or.inr hx)⟩

theorem nbComms_le_iff (m : List ℕ) (K : ℕ) :
    nbComms m ≤ K ↔ ∀ x ∈ m, x < K := by
  rw [nbComms, foldl_max_le_iff]
  simp

theorem getD_mem {l : List ℕ} {v : ℕ} (hv : v < l.length) (d : ℕ) : l.getD v d ∈ l := by
  induction l generalizing v with
  | nil => simp at hv
  | cons x xs ih =>
    cases v with
    | zero => exact List.mem_cons_self x xs
    | succ j => exact List.mem_cons_of_mem _ (ih (by simpa using hv))

theorem getD_lt_nbComms (m : List ℕ) {v : ℕ} (hv : v < m.length) :
    m.getD v 0 < nbComms m :=
  (nbComms_le_iff m (nbComms m)).1 le_rfl _ (getD_mem hv 0)

/-! ## Characterizing the `init_admin` folds -/

theorem length_initCommunity_aux (m : List ℕ) (vs : List ℕ) (l : List (Finset ℕ)) :
    (vs.foldl (fun l v => updAt l (m.getD v 0) (insert v)) l).length = l.length := by
  induction vs generalizing l with
  | nil => rfl
  | cons y ys ih => rw [List.foldl_cons, ih, length_updAt]

@[simp] theorem length_initCommunity (m : List ℕ) (n nb : ℕ) :
    (initCommunity m n nb).length = nb := by
  rw [initCommunity, length_initCommunity_aux, List.length_replicate]

theorem length_initCsize_aux (g : Graph) (m : List ℕ) (vs : List ℕ) (l : List ℕ) :
    (vs.foldl (fun l v => addAtN l (m.getD v 0) (g.nodeSize v)) l).length = l.length := by
  induction vs generalizing l with
  | nil => rfl
  | cons y ys ih => rw [List.foldl_cons, ih, length_addAtN]

@[simp] theorem length_initCsize (g : Graph) (m : List ℕ) (nb : ℕ) :
    (initCsize g m nb).length = nb := by
  rw [initCsize, length_initCsize_aux, List.length_replicate]

theorem initCommunity_succ (m : List ℕ) (n nb : ℕ) :
    initCommunity m (n + 1) nb = updAt (initCommunity m n nb) (m.getD n 0) (insert n) := by
  rw [initCommunity, initCommunity, List.range_succ, List.foldl_append]
  rfl

theorem initCsize_succ (g : Graph) (m : List ℕ) (nb : ℕ) (n : ℕ) :
    (List.range (n + 1)).foldl (fun l v => addAtN l (m.getD v 0) (g.nodeSize v))
        (List.replicate nb 0) =
      addAtN ((List.range n).foldl (fun l v => addAtN l (m.getD v 0) (g.nodeSize v))
        (List.replicate nb 0)) (m.getD n 0) (g.nodeSize n) := by
  rw [List.range_succ, List.foldl_append]
  rfl

theorem getD_replicate {α : Type} (n : ℕ) (x : α) (c : ℕ) :
    (List.replicate n x).getD c x = x := by
  induction n generalizing c with
  | zero => rfl
  | succ k ih =>
    cases c with
    | zero => rfl
    | succ j => exact ih j

theorem getD_initCommunity (m : List ℕ) (n nb : ℕ) (c : ℕ) (hc : c < nb) :
    (initCommunity m n nb).getD c ∅ =
      (Finset.range n).filter (fun v => m.getD v 0 = c) := by
  induction n with
  | zero =>
    rw [initCommunity]
    simp only [List.range_zero, List.foldl_nil, getD_replicate, Finset.range_zero,
      Finset.filter_empty]
  | succ n ih =>
    rw [initCommunity_succ, getD_updAt, length_initCommunity, ih, Finset.range_succ,
      Finset.filter_insert]
    by_cases hm : m.getD n 0 = c
    · rw [if_pos ⟨hm.symm, hc⟩, if_pos hm]
    · rw [if_neg (fun hcc => hm hcc.1.symm), if_neg hm]

theorem getD_initCsize_aux (g : Graph) (m : List ℕ) (nb : ℕ) (c : ℕ) (hc : c < nb) (n : ℕ) :
    ((List.range n).foldl (fun l v => addAtN l (m.getD v 0) (g.nodeSize v))
        (List.replicate nb 0)).getD c 0 =
      ∑ v ∈ (Finset.range n).filter (fun v => m.getD v 0 = c), g.nodeSize v := by
  induction n with
  | zero =>
    simp only [List.range_zero, List.foldl_nil, getD_replicate, Finset.range_zero,
      Finset.filter_empty, Finset.sum_empty]
  | succ n ih =>
    rw [initCsize_succ, getD_addAtN, length_initCsize_aux, List.length_replicate, ih,
      Finset.range_succ, Finset.filter_insert]
    by_cases hm : m.getD n 0 = c
    · rw [if_pos ⟨hm.symm, hc⟩, if_pos hm, Finset.sum_insert (by simp)]
      ring
    · rw [if_neg (fun hcc => hm hcc.1.symm), if_neg hm, add_zero]

theorem getD_initCsize (g : Graph) (m : List ℕ) (nb : ℕ) (c : ℕ) (hc : c < nb) :
    (initCsize g m nb).getD c 0 =
      ∑ v ∈ (Finset.range g.n).filter (fun v => m.getD v 0 = c), g.nodeSize v :=
  getD_initCsize_aux g m nb c hc g.n

/-! ## The structural well-formedness invariant -/

/-- The structural consistency invariant of a partition state: membership has
one entry per vertex, every membership value is an allocated slot, each
community set is exactly the set of its members, and each `_csize` entry is the
sum of its members' node sizes.  This is the §8 "partition coverage" and "size
consistency" content; every reachable state satisfies it. -/
def WF (g : Graph) (s : Partition) : Prop :=
  s.membership.length = g.n ∧
  s.csizes.length = s.community.length ∧
  (∀ v, v < g.n → s.membership.getD v 0 < s.community.length) ∧
  (∀ c, c < s.community.length →
    s.community.getD c ∅ = (Finset.range g.n).filter (fun v => s.membership.getD v 0 = c)) ∧
  (∀ c, c < s.community.length →
    s.csizes.getD c 0 = ∑ v ∈ s.community.getD c ∅, g.nodeSize v)

instance (g : Graph) (s : Partition) : Decidable (WF g s) := by
  unfold WF; infer_instance

@[simp] theorem init_admin_membership (g : Graph) (m : List ℕ) (prev : Partition) :
    (init_admin g m prev).membership = m := rfl

@[simp] theorem init_admin_community (g : Graph) (m : List ℕ) (prev : Partition) :
    (init_admin g m prev).community = initCommunity m g.n (nbComms m) := rfl

@[simp] theorem init_admin_csizes (g : Graph) (m : List ℕ) (prev : Partition) :
    (init_admin g m prev).csizes = initCsize g m (nbComms m) := rfl

@[simp] theorem init_admin_empty_communities (g : Graph) (m : List ℕ) (prev : Partition) :
    (init_admin g m prev).empty_communities = prev.empty_communities := rfl

@[simp] theorem init_admin_total_possible (g : Graph) (m : List ℕ) (prev : Partition) :
    (init_admin g m prev).total_possible_edges_in_all_comms =
      initTotalPossible g (initCsize g m (nbComms m)) (nbComms m) := rfl

theorem init_admin_WF (g : Graph) (m : List ℕ) (prev : Partition)
    (hm : m.length = g.n) : WF g (init_admin g m prev) := by
  refine ⟨hm, ?_, ?_, ?_, ?_⟩
  · rw [init_admin_csizes, init_admin_community, length_initCsize, length_initCommunity]
  · intro v hv
    rw [init_admin_membership, init_admin_community, length_initCommunity]
    exact getD_lt_nbComms m (hm ▸ hv)
  · intro c hc
    rw [init_admin_community, length_initCommunity] at hc
    rw [init_admin_community, init_admin_membership]
    exact getD_initCommunity m g.n (nbComms m) c hc
  · intro c hc
    rw [init_admin_community, length_initCommunity] at hc
    rw [init_admin_community, init_admin_csizes]
    rw [getD_initCsize g m (nbComms m) c hc]
    congr 1
    exact (getD_initCommunity m g.n (nbComms m) c hc).symm

/-! ## Closed form of the `move_node` edge loops -/

/-- The internal contribution of one incident edge in `move_node`:
`w / (directed ? 1 : 2) / (self-loop ? 2 : 1)`. -/
def edgeIntW (g : Graph) (v : ℕ) (ue : ℕ × ℕ) : ℚ :=
  g.edgeWeight ue.2 / (if g.directed then 1 else 2) / (if ue.1 = v then 2 else 1)

/-- What one edge removes from `in[old_comm]` during `move_node`. -/
def contribInOld (g : Graph) (m : List ℕ) (v oldComm : ℕ) (ue : ℕ × ℕ) : ℚ :=
  if oldComm = m.getD ue.1 0 then edgeIntW g v ue else 0

/-- What one edge adds to `in[new_comm]` during `move_node`. -/
def contribInNew (g : Graph) (m : List ℕ) (v newComm : ℕ) (ue : ℕ × ℕ) : ℚ :=
  if newComm = m.getD ue.1 0 ∨ ue.1 = v then edgeIntW g v ue else 0

/-- Total edge weight of an incident-edge list. -/
def sumW (g : Graph) (L : List (ℕ × ℕ)) : ℚ := (L.map (fun ue => g.edgeWeight ue.2)).sum

/-- Total internal weight removed from `in[old_comm]` over an edge list. -/
def sumInOld (g : Graph) (m : List ℕ) (v oldComm : ℕ) (L : List (ℕ × ℕ)) : ℚ :=
  (L.map (contribInOld g m v oldComm)).sum

/-- Total internal weight added to `in[new_comm]` over an edge list. -/
def sumInNew (g : Graph) (m : List ℕ) (v newComm : ℕ) (L : List (ℕ × ℕ)) : ℚ :=
  (L.map (contribInNew g m v newComm)).sum

theorem moveEdgeStep_eq (g : Graph) (v oldComm newComm : ℕ) (isOut : Bool)
    (s : Partition) (ue : ℕ × ℕ) :
    moveEdgeStep g v oldComm newComm isOut s ue =
      { s with
        total_weight_from_comm :=
          if isOut then
            addAt (addAt s.total_weight_from_comm oldComm (-(g.edgeWeight ue.2)))
              newComm (g.edgeWeight ue.2)
          else s.total_weight_from_comm
        total_weight_to_comm :=
          if isOut then s.total_weight_to_comm
          else
            addAt (addAt s.total_weight_to_comm oldComm (-(g.edgeWeight ue.2)))
              newComm (g.edgeWeight ue.2)
        total_weight_in_comm :=
          addAt (addAt s.total_weight_in_comm oldComm
              (-(contribInOld g s.membership v oldComm ue)))
            newComm (contribInNew g s.membership v newComm ue)
        total_weight_in_all_comms := s.total_weight_in_all_comms
          - contribInOld g s.membership v oldComm ue
          + contribInNew g s.membership v newComm ue } := by
  unfold moveEdgeStep contribInOld contribInNew edgeIntW
  cases isOut <;> split_ifs <;>
    simp_all [addAt_zero, neg_zero, sub_zero, add_zero]

theorem list_ext_getD {α : Type} (l1 l2 : List α) (d : α) (hlen : l1.length = l2.length)
    (h : ∀ i, i < l1.length → l1.getD i d = l2.getD i d) : l1 = l2 := by
  induction l1 generalizing l2 with
  | nil => cases l2 with
    | nil => rfl
    | cons y ys => simp at hlen
  | cons x xs ih =>
    cases l2 with
    | nil => simp at hlen
    | cons y ys =>
      have h0 := h 0 (by simp)
      simp only [List.getD_cons_zero] at h0
      subst h0
      have := ih ys (by simpa using hlen) (fun i hi => h (i + 1) (by simpa using hi))
      rw [this]

theorem addAt_pair_pair (X : List ℚ) (o nw : ℕ) (a b c d : ℚ) :
    addAt (addAt (addAt (addAt X o a) nw b) o c) nw d =
      addAt (addAt X o (a + c)) nw (b + d) := by
  apply list_ext_getD _ _ 0 (by simp)
  intro j hj
  simp only [length_addAt] at hj
  rw [getD_addAt, getD_addAt, getD_addAt, getD_addAt, getD_addAt, getD_addAt]
  simp only [length_addAt]
  split_ifs <;> ring

theorem foldl_moveEdgeStep (g : Graph) (v oldComm newComm : ℕ) (isOut : Bool)
    (L : List (ℕ × ℕ)) (s : Partition) :
    L.foldl (moveEdgeStep g v oldComm newComm isOut) s =
      { s with
        total_weight_from_comm :=
          if isOut then
            addAt (addAt s.total_weight_from_comm oldComm (-(sumW g L))) newComm (sumW g L)
          else s.total_weight_from_comm
        total_weight_to_comm :=
          if isOut then s.total_weight_to_comm
          else addAt (addAt s.total_weight_to_comm oldComm (-(sumW g L))) newComm (sumW g L)
        total_weight_in_comm :=
          addAt (addAt s.total_weight_in_comm oldComm
              (-(sumInOld g s.membership v oldComm L)))
            newComm (sumInNew g s.membership v newComm L)
        total_weight_in_all_comms := s.total_weight_in_all_comms
          - sumInOld g s.membership v oldComm L
          + sumInNew g s.membership v newComm L } := by
  induction L generalizing s with
  | nil =>
    simp only [List.foldl_nil, sumW, sumInOld, sumInNew, List.map_nil, List.sum_nil,
      neg_zero, addAt_zero, sub_zero, add_zero]
    cases isOut <;> rfl
  | cons ue L ih =>
    rw [List.foldl_cons, moveEdgeStep_eq, ih]
    cases isOut <;>
      simp only [sumW, sumInOld, sumInNew, List.map_cons, List.sum_cons, if_true, if_false,
        Bool.false_eq_true, ite_true, ite_false] <;>
      congr 1 <;>
      first
        | rfl
        | (rw [addAt_pair_pair, neg_add])
        | ring

/-- The proved closed form of `move_node`: every field update expressed directly
in terms of the pre-move state (`move_node_eq` below shows the two agree). -/
def moveClosed (g : Graph) (s : Partition) (v newComm : ℕ) : Partition :=
  let ns := g.nodeSize v
  let oldComm := s.membership.getD v 0
  let delta : ℚ := 2 * (ns : ℚ) *
      (((s.csizes.getD newComm 0 : ℤ) - (s.csizes.getD oldComm 0 : ℤ) + (ns : ℤ) : ℤ) : ℚ) /
      (2 - (if g.directed then 1 else 0))
  let cs1 := subAtN s.csizes oldComm ns
  let pool1 :=
    if cs1.getD oldComm 0 = 0 then s.empty_communities ++ [oldComm] else s.empty_communities
  let pool2 := if cs1.getD newComm 0 = 0 then removeLastOcc pool1 newComm else pool1
  { s with
    membership := s.membership.set v newComm
    community := updAt (updAt s.community oldComm (fun t => t.erase v)) newComm (insert v)
    csizes := addAtN cs1 newComm ns
    empty_communities := pool2
    total_possible_edges_in_all_comms :=
      if newComm ≠ oldComm then s.total_possible_edges_in_all_comms + delta
      else s.total_possible_edges_in_all_comms
    total_weight_from_comm :=
      addAt (addAt s.total_weight_from_comm oldComm (-(sumW g (g.neighOut v))))
        newComm (sumW g (g.neighOut v))
    total_weight_to_comm :=
      addAt (addAt s.total_weight_to_comm oldComm (-(sumW g (g.neighIn v))))
        newComm (sumW g (g.neighIn v))
    total_weight_in_comm :=
      addAt (addAt
        (addAt (addAt s.total_weight_in_comm oldComm
            (-(sumInOld g s.membership v oldComm (g.neighOut v))))
          newComm (sumInNew g s.membership v newComm (g.neighOut v)))
        oldComm (-(sumInOld g s.membership v oldComm (g.neighIn v))))
        newComm (sumInNew g s.membership v newComm (g.neighIn v))
    total_weight_in_all_comms := s.total_weight_in_all_comms
      - sumInOld g s.membership v oldComm (g.neighOut v)
      + sumInNew g s.membership v newComm (g.neighOut v)
      - sumInOld g s.membership v oldComm (g.neighIn v)
      + sumInNew g s.membership v newComm (g.neighIn v) }

theorem move_node_eq (g : Graph) (s : Partition) (v newComm : ℕ) :
    move_node g s v newComm = moveClosed g s v newComm := by
  simp only [move_node, moveClosed]
  rw [foldl_moveEdgeStep, foldl_moveEdgeStep]
  simp only [apply_ite Partition.membership, apply_ite Partition.community,
    apply_ite Partition.csizes, apply_ite Partition.total_weight_in_comm,
    apply_ite Partition.total_weight_from_comm, apply_ite Partition.total_weight_to_comm,
    apply_ite Partition.total_weight_in_all_comms,
    apply_ite Partition.total_possible_edges_in_all_comms,
    apply_ite Partition.empty_communities,
    apply_ite Partition.current_node_cache_community_from,
    apply_ite Partition.current_node_cache_community_to,
    apply_ite Partition.current_node_cache_community_all,
    apply_ite Partition.cached_weight_from_community,
    apply_ite Partition.cached_weight_to_community,
    apply_ite Partition.cached_weight_all_community,
    apply_ite Partition.cached_neigh_comms_from,
    apply_ite Partition.cached_neigh_comms_to,
    apply_ite Partition.cached_neigh_comms_all, ite_self]
  split_ifs <;> first | rfl | simp_all

attribute [ext] Partition

/-! ## The no-op move -/

theorem updAt_of_length_le (l : List (Finset ℕ)) {i : ℕ} (h : l.length ≤ i)
    (f : Finset ℕ → Finset ℕ) : updAt l i f = l := by
  rw [updAt, set_of_length_le _ h]

theorem updAt_updAt_same (l : List (Finset ℕ)) (i : ℕ) (f h : Finset ℕ → Finset ℕ) :
    updAt (updAt l i f) i h = updAt l i (fun x => h (f x)) := by
  by_cases hl : i < l.length
  · unfold updAt
    rw [getD_set_self _ _ _ _ hl, List.set_set]
  · have h1 : l.length ≤ i := by omega
    have h2 : (updAt l i f).length ≤ i := by rw [length_updAt]; exact h1
    rw [updAt_of_length_le _ h2, updAt_of_length_le _ h1, updAt_of_length_le _ h1]

theorem updAt_id_of (l : List (Finset ℕ)) (i : ℕ) (f : Finset ℕ → Finset ℕ)
    (hf : f (l.getD i ∅) = l.getD i ∅) : updAt l i f = l := by
  rw [updAt, hf, set_getD_self]

theorem addAtN_subAtN_cancel (l : List ℕ) (i : ℕ) (x : ℕ) (h : x ≤ l.getD i 0) :
    addAtN (subAtN l i x) i x = l := by
  by_cases hl : i < l.length
  · unfold addAtN subAtN
    rw [getD_set_self _ _ _ _ hl, List.set_set, Nat.sub_add_cancel h, set_getD_self]
  · unfold addAtN subAtN
    have h1 : l.length ≤ i := by omega
    rw [set_of_length_le _ h1, set_of_length_le _ h1]

theorem contrib_noop (g : Graph) (m : List ℕ) (v old : ℕ) (hm : m.getD v 0 = old)
    (ue : ℕ × ℕ) : contribInOld g m v old ue = contribInNew g m v old ue := by
  unfold contribInOld contribInNew
  by_cases hu : ue.1 = v
  · rw [hu, hm]
    simp
  · simp [hu]

theorem sumIn_noop (g : Graph) (m : List ℕ) (v old : ℕ) (hm : m.getD v 0 = old)
    (L : List (ℕ × ℕ)) : sumInOld g m v old L = sumInNew g m v old L := by
  unfold sumInOld sumInNew
  congr 1
  exact List.map_congr_left (fun ue _ => contrib_noop g m v old hm ue)

/-- `move_node(v, membership[v])` is an exact no-op on the entire state,
provided `v` really is a member of its community's set and the community's size
accounts for `v`'s node size (both hold in every reachable state). -/
theorem move_node_noop (g : Graph) (s : Partition) (v : ℕ)
    (hmem : v ∈ s.community.getD (s.membership.getD v 0) ∅)
    (hsz : g.nodeSize v ≤ s.csizes.getD (s.membership.getD v 0) 0) :
    move_node g s v (s.membership.getD v 0) = s := by
  rw [move_node_eq]
  simp only [moveClosed, ne_eq, not_true, if_false, ite_false, ite_self]
  have hfrom : ∀ (F : List ℚ) (S : ℚ) (o : ℕ), addAt (addAt F o (-S)) o S = F := by
    intro F S o
    rw [addAt_addAt_same, neg_add_cancel, addAt_zero]
  ext1
  · exact set_getD_self _ _ _
  · rw [updAt_updAt_same]
    exact updAt_id_of _ _ (fun x => insert v (x.erase v)) (Finset.insert_erase hmem)
  · exact addAtN_subAtN_cancel _ _ _ hsz
  · rw [sumIn_noop g s.membership v _ rfl (g.neighOut v),
      sumIn_noop g s.membership v _ rfl (g.neighIn v), addAt_pair_pair,
      ← neg_add, addAt_addAt_same, neg_add_cancel, addAt_zero]
  · exact hfrom _ _ _
  · exact hfrom _ _ _
  · rw [sumIn_noop g s.membership v _ rfl (g.neighOut v),
      sumIn_noop g s.membership v _ rfl (g.neighIn v)]
    ring
  · rfl
  · by_cases hb :
      (subAtN s.csizes (s.membership.getD v 0) (g.nodeSize v)).getD
        (s.membership.getD v 0) 0 = 0
    · simp only [hb, if_true, ite_true]
      exact removeLastOcc_append_self _ _
    · simp only [hb, if_false, ite_false]
  · rfl
  · rfl
  · rfl
  · rfl
  · rfl
  · rfl
  · rfl
  · rfl
  · rfl

/-! ## `move_node` preserves well-formedness -/

theorem getD_set_fun (m : List ℕ) (v newComm : ℕ) (hv : v < m.length) (u : ℕ) :
    (m.set v newComm).getD u 0 = if u = v then newComm else m.getD u 0 := by
  by_cases hu : u = v
  · subst hu
    rw [getD_set_self _ _ _ _ hv, if_pos rfl]
  · rw [getD_set_ne _ _ _ (fun h => hu h.symm), if_neg hu]

theorem csize_ge_nodeSize (g : Graph) (s : Partition) (v : ℕ) (hWF : WF g s)
    (hv : v < g.n) :
    g.nodeSize v ≤ s.csizes.getD (s.membership.getD v 0) 0 := by
  obtain ⟨h1, h2, h3, h4, h5⟩ := hWF
  have hold := h3 v hv
  have hmem : v ∈ s.community.getD (s.membership.getD v 0) ∅ := by
    rw [h4 _ hold]
    simp [Finset.mem_filter, hv]
  rw [h5 _ hold]
  exact Finset.single_le_sum (fun i _ => Nat.zero_le _) hmem

theorem mem_own_community (g : Graph) (s : Partition) (v : ℕ) (hWF : WF g s)
    (hv : v < g.n) : v ∈ s.community.getD (s.membership.getD v 0) ∅ := by
  obtain ⟨h1, h2, h3, h4, h5⟩ := hWF
  rw [h4 _ (h3 v hv)]
  simp [Finset.mem_filter, hv]

theorem move_node_WF (g : Graph) (s : Partition) (v newComm : ℕ)
    (hWF : WF g s) (hv : v < g.n) (hnc : newComm < s.community.length) :
    WF g (move_node g s v newComm) := by
  have hsz := csize_ge_nodeSize g s v hWF hv
  have hvmem := mem_own_community g s v hWF hv
  obtain ⟨h1, h2, h3, h4, h5⟩ := hWF
  have hold : s.membership.getD v 0 < s.community.length := h3 v hv
  have hv1 : v < s.membership.length := by omega
  rw [move_node_eq]
  simp only [moveClosed]
  set old := s.membership.getD v 0 with hold_def
  constructor
  · simpa using h1
  constructor
  · simp only [length_addAtN, length_subAtN, length_updAt]
    exact h2
  constructor
  · intro u hu
    simp only [length_updAt]
    rw [getD_set_fun s.membership v newComm hv1 u]
    by_cases huv : u = v
    · simpa [huv] using hnc
    · simpa [huv] using h3 u hu
  constructor
  · intro c hc
    simp only [length_updAt] at hc
    rw [getD_updAt, getD_updAt]
    simp only [length_updAt]
    split_ifs <;>
    · ext u
      simp only [Finset.mem_insert, Finset.mem_erase, h4 c hc, Finset.mem_filter,
        Finset.mem_range, getD_set_fun s.membership v newComm hv1 u]
      by_cases huv : u = v
      · subst huv
        rw [if_pos rfl]
        all_goals omega
      · rw [if_neg huv]
        all_goals omega
  · intro c hc
    simp only [length_updAt] at hc
    rw [getD_addAtN, getD_subAtN, getD_updAt, getD_updAt]
    simp only [length_subAtN, length_updAt, h2]
    split_ifs <;>
    · first
      | (have hco : c = s.membership.getD v 0 := by omega
         have hmemc : v ∈ s.community.getD c ∅ := by
           rw [hco]
           exact hvmem
         have hszc : g.nodeSize v ≤ s.csizes.getD c 0 := by
           rw [hco]
           exact hsz
         rw [Finset.insert_erase hmemc, ← h5 c hc]
         omega)
      | (have hco : c = s.membership.getD v 0 := by omega
         have hmemc : v ∈ s.community.getD c ∅ := by
           rw [hco]
           exact hvmem
         have hsum : (∑ x ∈ (s.community.getD c ∅).erase v, g.nodeSize x) + g.nodeSize v
             = ∑ x ∈ s.community.getD c ∅, g.nodeSize x :=
           Finset.sum_erase_add (s.community.getD c ∅) (fun i => g.nodeSize i) hmemc
         rw [← h5 c hc] at hsum
         omega)
      | (have hnotmem : v ∉ s.community.getD c ∅ := by
           rw [h4 c hc]
           simp only [Finset.mem_filter, Finset.mem_range, not_and]
           intro _
           omega
         rw [Finset.sum_insert hnotmem, ← h5 c hc]
         omega)
      | (have h9 := h5 c hc
         omega)
/-! ## `add_empty_community` preserves well-formedness; reachable states -/

theorem getD_resizeN (l : List ℕ) (n c : ℕ) :
    (resizeN l n).getD c 0 = if c < n then l.getD c 0 else 0 := by
  induction l generalizing n c with
  | nil =>
    simp only [resizeN, List.take_nil, List.length_nil, Nat.sub_zero, List.nil_append,
      getD_replicate]
    cases c <;> split_ifs <;> rfl
  | cons x xs ih =>
    cases n with
    | zero => simp [resizeN]
    | succ k =>
      cases c with
      | zero => simp [resizeN]
      | succ j =>
        have : resizeN (x :: xs) (k + 1) = x :: resizeN xs k := by
          simp [resizeN]
        rw [this]
        simpa using ih k j

theorem length_resizeN (l : List ℕ) (n : ℕ) : (resizeN l n).length = n := by
  simp only [resizeN, List.length_append, List.length_take, List.length_replicate]
  omega

theorem getD_resizeQ (l : List ℚ) (n c : ℕ) :
    (resizeQ l n).getD c 0 = if c < n then l.getD c 0 else 0 := by
  induction l generalizing n c with
  | nil =>
    simp only [resizeQ, List.take_nil, List.length_nil, Nat.sub_zero, List.nil_append,
      getD_replicate]
    cases c <;> split_ifs <;> rfl
  | cons x xs ih =>
    cases n with
    | zero => simp [resizeQ]
    | succ k =>
      cases c with
      | zero => simp [resizeQ]
      | succ j =>
        have : resizeQ (x :: xs) (k + 1) = x :: resizeQ xs k := by
          simp [resizeQ]
        rw [this]
        simpa using ih k j

theorem length_resizeQ (l : List ℚ) (n : ℕ) : (resizeQ l n).length = n := by
  simp only [resizeQ, List.length_append, List.length_take, List.length_replicate]
  omega

theorem getD_append_lt {α : Type} (l l2 : List α) (d : α) {c : ℕ} (h : c < l.length) :
    (l ++ l2).getD c d = l.getD c d := by
  induction l generalizing c with
  | nil => simp at h
  | cons x xs ih =>
    cases c with
    | zero => rfl
    | succ j => exact ih (by simpa using h)

theorem getD_append_len {α : Type} (l : List α) (x : α) (d : α) :
    (l ++ [x]).getD l.length d = x := by
  induction l with
  | nil => rfl
  | cons y ys ih => simpa using ih

theorem add_empty_community_WF (g : Graph) (s s2 : Partition) (c : ℕ)
    (hWF : WF g s) (h : add_empty_community g s = .ok (s2, c)) : WF g s2 := by
  obtain ⟨h1, h2, h3, h4, h5⟩ := hWF
  unfold add_empty_community at h
  by_cases hcap : g.n < (s.community ++ [(∅ : Finset ℕ)]).length
  · rw [if_pos hcap] at h
    exact absurd h (by simp)
  · rw [if_neg hcap] at h
    simp only [Except.ok.injEq, Prod.mk.injEq] at h
    obtain ⟨hs2, hc⟩ := h
    subst hs2
    have hlen : (s.community ++ [(∅ : Finset ℕ)]).length = s.community.length + 1 := by
      simp
    refine ⟨h1, ?_, ?_, ?_, ?_⟩
    · simp only [List.length_set, length_resizeN, hlen]
    · intro u hu
      simp only [hlen]
      exact Nat.lt_succ_of_lt (h3 u hu)
    · intro c2 hc2
      simp only [hlen] at hc2
      by_cases hlt : c2 < s.community.length
      · rw [getD_append_lt _ _ _ hlt, h4 c2 hlt]
      · have hc2e : c2 = s.community.length := by omega
        subst hc2e
        rw [getD_append_len]
        ext u
        simp only [Finset.not_mem_empty, false_iff, Finset.mem_filter, Finset.mem_range,
          not_and]
        intro hu
        have := h3 u hu
        omega
    · intro c2 hc2
      simp only [hlen] at hc2
      have hset : ((resizeN s.csizes (s.community ++ [(∅ : Finset ℕ)]).length).set
          ((s.community ++ [(∅ : Finset ℕ)]).length - 1) 0).getD c2 0 =
          if c2 = s.community.length then 0 else (resizeN s.csizes (s.community.length + 1)).getD c2 0 := by
        rw [hlen]
        by_cases hce : c2 = s.community.length
        · subst hce
          rw [if_pos rfl]
          have he : s.community.length + 1 - 1 = s.community.length := by omega
          rw [he]
          exact getD_set_self _ _ _ _ (by rw [length_resizeN]; omega)
        · rw [if_neg hce]
          exact getD_set_ne _ _ _ (by omega)
      rw [hset]
      by_cases hce : c2 = s.community.length
      · subst hce
        rw [if_pos rfl, getD_append_len]
        simp
      · rw [if_neg hce, getD_resizeN, if_pos (by omega),
          getD_append_lt _ _ _ (by omega)]
        exact h5 c2 (by omega)

/-- The states of a partition reachable through the §4 operations: construction
from a length-checked membership, `move_node` with a valid vertex and an
allocated target slot, a successful `add_empty_community`, and the two
renumbering / reconstruction forms. -/
inductive Reachable (g : Graph) : Partition → Prop where
  | init : ∀ m : List ℕ, m.length = g.n → Reachable g (init_admin g m emptyPartition)
  | move : ∀ s v newComm, Reachable g s → v < g.n → newComm < s.community.length →
      Reachable g (move_node g s v newComm)
  | addEmpty : ∀ s s2 c, Reachable g s → add_empty_community g s = .ok (s2, c) →
      Reachable g s2
  | renumber : ∀ s, Reachable g s → Reachable g (renumber_communities g s)
  | renumberMap : ∀ s m s2, Reachable g s → renumber_communities_map g s m = some s2 →
      Reachable g s2

theorem reachable_WF (g : Graph) (s : Partition) (h : Reachable g s) : WF g s := by
  induction h with
  | init m hm => exact init_admin_WF g m emptyPartition hm
  | move s v newComm _ hv hnc ih => exact move_node_WF g s v newComm ih hv hnc
  | addEmpty s s2 c _ hok ih => exact add_empty_community_WF g s s2 c ih hok
  | renumber s _ ih =>
    refine init_admin_WF g _ s ?_
    rw [List.length_map]
    exact ih.1
  | renumberMap s m s2 _ hok ih =>
    unfold renumber_communities_map at hok
    by_cases hlen : g.n ≤ m.length
    · rw [if_pos hlen] at hok
      simp only [Option.some.injEq] at hok
      subst hok
      exact init_admin_WF g _ s (by simp)
    · rw [if_neg hlen] at hok
      exact absurd hok (by simp)

/-! ## Round trip of `move_node` -/

theorem contrib_old_after (g : Graph) (m : List ℕ) (v A : ℕ) (hv : v < m.length)
    (ue : ℕ × ℕ) :
    contribInOld g (m.set v A) v A ue = contribInNew g m v A ue := by
  unfold contribInOld contribInNew
  by_cases hu : ue.1 = v
  · rw [hu, getD_set_self _ _ _ _ hv]
    simp [hu]
  · rw [getD_set_ne _ _ _ (fun h => hu h.symm)]
    simp [hu]

theorem contrib_new_after (g : Graph) (m : List ℕ) (v A : ℕ) (hv : v < m.length)
    (ue : ℕ × ℕ) :
    contribInNew g (m.set v A) v (m.getD v 0) ue =
      contribInOld g m v (m.getD v 0) ue := by
  unfold contribInOld contribInNew
  by_cases hu : ue.1 = v
  · rw [hu]
    simp [hu]
  · rw [getD_set_ne _ _ _ (fun h => hu h.symm)]
    simp [hu]

theorem sumInOld_after (g : Graph) (m : List ℕ) (v A : ℕ) (hv : v < m.length)
    (L : List (ℕ × ℕ)) : sumInOld g (m.set v A) v A L = sumInNew g m v A L := by
  unfold sumInOld sumInNew
  congr 1
  exact List.map_congr_left (fun ue _ => contrib_old_after g m v A hv ue)

theorem sumInNew_after (g : Graph) (m : List ℕ) (v A : ℕ) (hv : v < m.length)
    (L : List (ℕ × ℕ)) :
    sumInNew g (m.set v A) v (m.getD v 0) L = sumInOld g m v (m.getD v 0) L := by
  unfold sumInOld sumInNew
  congr 1
  exact List.map_congr_left (fun ue _ => contrib_new_after g m v A hv ue)

theorem addAt_inverse_pair (F : List ℚ) (o a : ℕ) (W : ℚ) :
    addAt (addAt (addAt (addAt F o (-W)) a W) a (-W)) o W = F := by
  apply list_ext_getD _ _ 0 (by simp)
  intro j hj
  rw [getD_addAt, getD_addAt, getD_addAt, getD_addAt]
  simp only [length_addAt]
  rw [show F.getD j 0 = F.getD j 0 + 0 from by ring]
  split_ifs <;> ring

theorem addAt_inverse_quad (F : List ℚ) (o a : ℕ) (p q r t : ℚ) :
    addAt (addAt (addAt (addAt (addAt (addAt (addAt (addAt F o (-p)) a q) o (-r)) a t)
      a (-q)) o p) a (-t)) o r = F := by
  apply list_ext_getD _ _ 0 (by simp)
  intro j hj
  rw [getD_addAt, getD_addAt, getD_addAt, getD_addAt, getD_addAt, getD_addAt,
    getD_addAt, getD_addAt]
  simp only [length_addAt]
  rw [show F.getD j 0 = F.getD j 0 + 0 from by ring]
  split_ifs <;> ring

/-- Moving `v` into any allocated community `A` and then back into its original
community restores membership, community sets, sizes and all weight aggregates
exactly (the empty-pool order is the one structure not asserted here). -/
theorem move_round_trip_full (g : Graph) (s : Partition) (v A : ℕ)
    (hWF : WF g s) (hv : v < g.n) (hA : A < s.community.length) :
    (move_node g (move_node g s v A) v (s.membership.getD v 0)).membership
        = s.membership ∧
    (move_node g (move_node g s v A) v (s.membership.getD v 0)).community
        = s.community ∧
    (move_node g (move_node g s v A) v (s.membership.getD v 0)).csizes = s.csizes ∧
    (move_node g (move_node g s v A) v (s.membership.getD v 0)).total_weight_in_comm
        = s.total_weight_in_comm ∧
    (move_node g (move_node g s v A) v (s.membership.getD v 0)).total_weight_from_comm
        = s.total_weight_from_comm ∧
    (move_node g (move_node g s v A) v (s.membership.getD v 0)).total_weight_to_comm
        = s.total_weight_to_comm ∧
    (move_node g (move_node g s v A) v (s.membership.getD v 0)).total_weight_in_all_comms
        = s.total_weight_in_all_comms ∧
    (move_node g (move_node g s v A) v
        (s.membership.getD v 0)).total_possible_edges_in_all_comms
        = s.total_possible_edges_in_all_comms := by
  have hsz := csize_ge_nodeSize g s v hWF hv
  have hvmem := mem_own_community g s v hWF hv
  obtain ⟨h1, h2, h3, h4, h5⟩ := hWF
  have hold : s.membership.getD v 0 < s.community.length := h3 v hv
  have hv1 : v < s.membership.length := by omega
  by_cases hAo : A = s.membership.getD v 0
  · rw [hAo, move_node_noop g s v hvmem hsz, move_node_noop g s v hvmem hsz]
    exact ⟨rfl, rfl, rfl, rfl, rfl, rfl, rfl, rfl⟩
  · rw [move_node_eq, move_node_eq]
    simp only [moveClosed, getD_set_self s.membership v 0 A hv1]
    refine ⟨?_, ?_, ?_, ?_, ?_, ?_, ?_, ?_⟩
    · rw [List.set_set, set_getD_self]
    · apply list_ext_getD _ _ ∅ (by simp)
      intro j hj
      simp only [length_updAt] at hj
      rw [getD_updAt, getD_updAt, getD_updAt, getD_updAt]
      simp only [length_updAt]
      split_ifs <;>
        first
          | rfl
          | (exfalso; omega)
          | (rw [Finset.insert_erase (by
              rw [show j = s.membership.getD v 0 from by omega]
              exact hvmem)])
          | (rw [Finset.erase_insert (by
              rw [h4 j hj]
              simp only [Finset.mem_filter, Finset.mem_range, not_and]
              intro _
              omega)])
    · apply list_ext_getD _ _ 0 (by simp)
      intro j hj
      simp only [length_addAtN, length_subAtN] at hj
      rw [getD_addAtN, getD_subAtN, getD_addAtN, getD_subAtN]
      simp only [length_addAtN, length_subAtN]
      by_cases hjo : j = s.membership.getD v 0
      · subst hjo
        split_ifs <;> omega
      · split_ifs <;> omega
    · rw [sumInOld_after g s.membership v A hv1, sumInOld_after g s.membership v A hv1,
        sumInNew_after g s.membership v A hv1, sumInNew_after g s.membership v A hv1]
      exact addAt_inverse_quad s.total_weight_in_comm (s.membership.getD v 0) A _ _ _ _
    · exact addAt_inverse_pair _ _ _ _
    · exact addAt_inverse_pair _ _ _ _
    · rw [sumInOld_after g s.membership v A hv1, sumInOld_after g s.membership v A hv1,
        sumInNew_after g s.membership v A hv1, sumInNew_after g s.membership v A hv1]
      ring
    · rw [if_pos hAo, if_pos (Ne.symm hAo), getD_addAtN, getD_subAtN, getD_addAtN,
        getD_subAtN]
      simp only [length_addAtN, length_subAtN]
      have hlen : A < s.csizes.length := by omega
      have hlen2 : s.membership.getD v 0 < s.csizes.length := by omega
      rcases hd : g.directed <;>
        simp only [hd, Bool.false_eq_true, eq_self_iff_true, if_true, if_false] <;>
        split_ifs <;>
        first
          | (exfalso; simp only [true_and] at *; omega)
          | (push_cast [Nat.cast_sub hsz, Nat.sub_zero, Nat.add_zero]; ring)

/-! ## The running `total_possible_edges` scalar -/

/-- The invariant: the running scalar equals the sum of `possible_edges` of the
community sizes over all allocated slots. -/
def PEInv (g : Graph) (s : Partition) : Prop :=
  s.total_possible_edges_in_all_comms =
    ∑ c ∈ Finset.range s.community.length, (g.possible_edges (s.csizes.getD c 0) : ℚ)

instance (g : Graph) (s : Partition) : Decidable (PEInv g s) := by
  unfold PEInv; infer_instance

theorem initTotalPossible_eq_sum (g : Graph) (cs : List ℕ) (nb : ℕ) :
    initTotalPossible g cs nb =
      ∑ c ∈ Finset.range nb, (g.possible_edges (cs.getD c 0) : ℚ) := by
  unfold initTotalPossible
  induction nb with
  | zero => simp
  | succ k ih =>
    rw [List.range_succ, List.foldl_append, List.foldl_cons, List.foldl_nil, ih,
      Finset.sum_range_succ]

theorem possible_edges_cast (g : Graph) (k : ℕ) :
    (g.possible_edges k : ℚ) =
      ((k : ℚ) * k - k) / (2 - if g.directed then 1 else 0) := by
  unfold Graph.possible_edges
  rcases hd : g.directed <;>
    simp only [hd, Bool.false_eq_true, eq_self_iff_true, if_true, if_false, ite_true,
      ite_false]
  · have hdvd : 2 ∣ k * (k - 1) := by
      cases k with
      | zero => simp
      | succ m =>
        rw [Nat.succ_sub_one, Nat.mul_comm]
        exact (Nat.even_mul_succ_self m).two_dvd
    rw [Nat.cast_div hdvd (by norm_num)]
    cases k with
    | zero => norm_num
    | succ m =>
      rw [Nat.succ_sub_one]
      push_cast
      ring
  · cases k with
    | zero => norm_num
    | succ m =>
      rw [Nat.succ_sub_one]
      push_cast
      ring

theorem sum_range_update_two (f f2 : ℕ → ℚ) (nb o a : ℕ) (ho : o < nb) (ha : a < nb)
    (hne : o ≠ a) (hf : ∀ c, c ≠ o → c ≠ a → f2 c = f c) :
    ∑ c ∈ Finset.range nb, f2 c =
      (∑ c ∈ Finset.range nb, f c) + (f2 o - f o) + (f2 a - f a) := by
  have hd : ∑ c ∈ Finset.range nb, (f2 c - f c) =
      ∑ c ∈ ({o, a} : Finset ℕ), (f2 c - f c) := by
    refine (Finset.sum_subset ?_ ?_).symm
    · intro x hx
      simp only [Finset.mem_insert, Finset.mem_singleton] at hx
      rcases hx with rfl | rfl
      · exact Finset.mem_range.2 ho
      · exact Finset.mem_range.2 ha
    · intro x _ hx
      simp only [Finset.mem_insert, Finset.mem_singleton, not_or] at hx
      rw [hf x hx.1 hx.2]
      ring
  have hp : ∑ c ∈ ({o, a} : Finset ℕ), (f2 c - f c) = (f2 o - f o) + (f2 a - f a) :=
    Finset.sum_pair hne
  have : ∑ c ∈ Finset.range nb, (f2 c - f c) =
      (∑ c ∈ Finset.range nb, f2 c) - ∑ c ∈ Finset.range nb, f c :=
    Finset.sum_sub_distrib
  rw [hd, hp] at this
  linarith

theorem move_node_PE (g : Graph) (s : Partition) (v newComm : ℕ)
    (hWF : WF g s) (hPE : PEInv g s) (hv : v < g.n) (hnc : newComm < s.community.length) :
    PEInv g (move_node g s v newComm) := by
  have hsz := csize_ge_nodeSize g s v hWF hv
  have hvmem := mem_own_community g s v hWF hv
  obtain ⟨h1, h2, h3, h4, h5⟩ := hWF
  have hold : s.membership.getD v 0 < s.community.length := h3 v hv
  by_cases hno : newComm = s.membership.getD v 0
  · rw [hno, move_node_noop g s v hvmem hsz]
    exact hPE
  · unfold PEInv at hPE ⊢
    rw [move_node_eq]
    simp only [moveClosed, length_updAt]
    rw [if_pos (fun hc => hno hc)]
    have hX : (addAtN (subAtN s.csizes (s.membership.getD v 0) (g.nodeSize v)) newComm
        (g.nodeSize v)).getD (s.membership.getD v 0) 0
        = s.csizes.getD (s.membership.getD v 0) 0 - g.nodeSize v := by
      rw [getD_addAtN, getD_subAtN]
      simp only [length_subAtN]
      split_ifs <;> simp only [true_and] at * <;> omega
    have hY : (addAtN (subAtN s.csizes (s.membership.getD v 0) (g.nodeSize v)) newComm
        (g.nodeSize v)).getD newComm 0 = s.csizes.getD newComm 0 + g.nodeSize v := by
      rw [getD_addAtN, getD_subAtN]
      simp only [length_subAtN]
      split_ifs <;> simp only [true_and] at * <;> omega
    have hother : ∀ c, c ≠ s.membership.getD v 0 → c ≠ newComm →
        (g.possible_edges ((addAtN (subAtN s.csizes (s.membership.getD v 0)
          (g.nodeSize v)) newComm (g.nodeSize v)).getD c 0) : ℚ)
        = (g.possible_edges (s.csizes.getD c 0) : ℚ) := by
      intro c hc1 hc2
      rw [getD_addAtN, getD_subAtN]
      simp only [length_subAtN]
      rw [if_neg (fun hh => hc1 hh.1), if_neg (fun hh => hc2 hh.1), Nat.sub_zero,
        Nat.add_zero]
    rw [sum_range_update_two _ _ s.community.length (s.membership.getD v 0) newComm hold
      hnc (fun h => hno h.symm) hother, ← hPE, hX, hY]
    rw [possible_edges_cast, possible_edges_cast, possible_edges_cast,
      possible_edges_cast]
    push_cast [Nat.cast_sub hsz]
    rcases hd : g.directed <;>
      simp only [hd, Bool.false_eq_true, eq_self_iff_true, if_true, if_false, ite_true,
        ite_false] <;>
      ring

/-- The states reachable through construction followed by `move_node` calls only
(the scope of the `total_possible_edges` running-scalar claim). -/
inductive MoveReachable (g : Graph) : Partition → Prop where
  | init : ∀ m : List ℕ, m.length = g.n → MoveReachable g (init_admin g m emptyPartition)
  | move : ∀ s v newComm, MoveReachable g s → v < g.n → newComm < s.community.length →
      MoveReachable g (move_node g s v newComm)

theorem moveReachable_WF_PE (g : Graph) (s : Partition) (h : MoveReachable g s) :
    WF g s ∧ PEInv g s := by
  induction h with
  | init m hm =>
    refine ⟨init_admin_WF g m emptyPartition hm, ?_⟩
    unfold PEInv
    rw [init_admin_total_possible, init_admin_community, init_admin_csizes,
      length_initCommunity]
    exact initTotalPossible_eq_sum g _ _
  | move s v newComm _ hv hnc ih =>
    exact ⟨move_node_WF g s v newComm ih.1 hv hnc,
      move_node_PE g s v newComm ih.1 ih.2 hv hnc⟩

/-! ## The empty-community pool invariant -/

/-- The pool invariant the spec asserts: the pool is duplicate-free, mentions
only allocated slots, and an allocated slot has size zero exactly when pooled. -/
def PoolInv (s : Partition) : Prop :=
  s.empty_communities.Nodup ∧
  (∀ c ∈ s.empty_communities, c < s.community.length) ∧
  (∀ c, c < s.community.length → (s.csizes.getD c 0 = 0 ↔ c ∈ s.empty_communities))

instance (s : Partition) : Decidable (PoolInv s) := by
  unfold PoolInv; infer_instance

theorem init_admin_PoolInv (g : Graph) (m : List ℕ) (hm : m.length = g.n)
    (hgap : ∀ c, c < nbComms m → ∃ v, v < m.length ∧ m.getD v 0 = c)
    (hpos : ∀ u, 0 < g.nodeSize u) :
    PoolInv (init_admin g m emptyPartition) := by
  refine ⟨List.nodup_nil, ?_, ?_⟩
  · intro c hc
    exact absurd hc (List.not_mem_nil c)
  · intro c hc
    rw [init_admin_community, length_initCommunity] at hc
    rw [init_admin_csizes, init_admin_empty_communities]
    constructor
    · intro h0
      exfalso
      obtain ⟨u, hulen, hum⟩ := hgap c hc
      rw [getD_initCsize g m _ c hc] at h0
      have humem : u ∈ (Finset.range g.n).filter (fun w => m.getD w 0 = c) := by
        simp only [Finset.mem_filter, Finset.mem_range]
        exact ⟨hm ▸ hulen, hum⟩
      have hle : g.nodeSize u ≤
          ∑ w ∈ (Finset.range g.n).filter (fun w => m.getD w 0 = c), g.nodeSize w :=
        Finset.single_le_sum (fun i _ => Nat.zero_le _) humem
      have := hpos u
      omega
    · intro hmem
      exact absurd hmem (List.not_mem_nil c)

theorem nodup_pool_push {pool : List ℕ} {x : ℕ} (hnd : pool.Nodup) (hx : x ∉ pool) :
    (pool ++ [x]).Nodup := by
  rw [List.nodup_append]
  refine ⟨hnd, List.nodup_singleton _, ?_⟩
  intro a ha hb
  simp only [List.mem_singleton] at hb
  subst hb
  exact hx ha

theorem move_node_PoolInv (g : Graph) (s : Partition) (v newComm : ℕ)
    (hWF : WF g s) (hPool : PoolInv s) (hpos : ∀ u, 0 < g.nodeSize u)
    (hv : v < g.n) (hnc : newComm < s.community.length) :
    PoolInv (move_node g s v newComm) := by
  have hsz := csize_ge_nodeSize g s v hWF hv
  have hvmem := mem_own_community g s v hWF hv
  obtain ⟨h1, h2, h3, h4, h5⟩ := hWF
  obtain ⟨hnd, hbnd, hiff⟩ := hPool
  have hold : s.membership.getD v 0 < s.community.length := h3 v hv
  by_cases hno : newComm = s.membership.getD v 0
  · rw [hno, move_node_noop g s v hvmem hsz]
    exact ⟨hnd, hbnd, hiff⟩
  · have hposv := hpos v
    have holdnot : s.membership.getD v 0 ∉ s.empty_communities := by
      intro hmem
      have := (hiff _ hold).2 hmem
      omega
    have hnewiff := hiff newComm hnc
    rw [move_node_eq]
    unfold PoolInv
    simp only [moveClosed, length_updAt]
    have hcond1 : (subAtN s.csizes (s.membership.getD v 0) (g.nodeSize v)).getD
        (s.membership.getD v 0) 0 = s.csizes.getD (s.membership.getD v 0) 0 - g.nodeSize v := by
      rw [getD_subAtN]
      split_ifs <;> simp only [true_and] at * <;> omega
    have hcond2 : (subAtN s.csizes (s.membership.getD v 0) (g.nodeSize v)).getD
        newComm 0 = s.csizes.getD newComm 0 := by
      rw [getD_subAtN]
      split_ifs <;> simp only [true_and] at * <;> omega
    have hX : (addAtN (subAtN s.csizes (s.membership.getD v 0) (g.nodeSize v)) newComm
        (g.nodeSize v)).getD (s.membership.getD v 0) 0
        = s.csizes.getD (s.membership.getD v 0) 0 - g.nodeSize v := by
      rw [getD_addAtN, getD_subAtN]
      simp only [length_subAtN]
      split_ifs <;> simp only [true_and] at * <;> omega
    have hY : (addAtN (subAtN s.csizes (s.membership.getD v 0) (g.nodeSize v)) newComm
        (g.nodeSize v)).getD newComm 0 = s.csizes.getD newComm 0 + g.nodeSize v := by
      rw [getD_addAtN, getD_subAtN]
      simp only [length_subAtN]
      split_ifs <;> simp only [true_and] at * <;> omega
    have hother : ∀ c, c ≠ s.membership.getD v 0 → c ≠ newComm →
        (addAtN (subAtN s.csizes (s.membership.getD v 0) (g.nodeSize v)) newComm
          (g.nodeSize v)).getD c 0 = s.csizes.getD c 0 := by
      intro c hc1 hc2
      rw [getD_addAtN, getD_subAtN]
      simp only [length_subAtN]
      rw [if_neg (fun hh => hc1 hh.1), if_neg (fun hh => hc2 hh.1), Nat.sub_zero,
        Nat.add_zero]
    rw [hcond1, hcond2]
    by_cases hE : s.csizes.getD (s.membership.getD v 0) 0 - g.nodeSize v = 0 <;>
      by_cases hF : s.csizes.getD newComm 0 = 0
    · rw [if_pos hE, if_pos hF]
      have hnd2 : (s.empty_communities ++ [s.membership.getD v 0]).Nodup :=
        nodup_pool_push hnd holdnot
      refine ⟨nodup_removeLastOcc _ hnd2, ?_, ?_⟩
      · intro c hc
        rw [mem_removeLastOcc_of_nodup hnd2] at hc
        rcases List.mem_append.1 hc.1 with hcp | hcs
        · exact hbnd c hcp
        · simp only [List.mem_singleton] at hcs
          omega
      · intro c hc
        rw [mem_removeLastOcc_of_nodup hnd2, List.mem_append, List.mem_singleton]
        by_cases hcold : c = s.membership.getD v 0
        · subst hcold
          rw [hX]
          constructor
          · intro _
            exact ⟨Or.inr rfl, fun hh => hno hh.symm⟩
          · intro _
            exact hE
        · by_cases hcnew : c = newComm
          · subst hcnew
            rw [hY]
            constructor
            · intro hh
              omega
            · rintro ⟨_, hne⟩
              exact absurd rfl hne
          · rw [hother c hcold hcnew]
            rw [hiff c hc]
            constructor
            · intro hh
              exact ⟨Or.inl hh, hcnew⟩
            · rintro ⟨hh | hh, _⟩
              · exact hh
              · exact absurd hh hcold
    · rw [if_pos hE, if_neg hF]
      have hnd2 : (s.empty_communities ++ [s.membership.getD v 0]).Nodup :=
        nodup_pool_push hnd holdnot
      have hnewnot : newComm ∉ s.empty_communities := fun hmem => hF (hnewiff.2 hmem)
      refine ⟨hnd2, ?_, ?_⟩
      · intro c hc
        rcases List.mem_append.1 hc with hcp | hcs
        · exact hbnd c hcp
        · simp only [List.mem_singleton] at hcs
          omega
      · intro c hc
        rw [List.mem_append, List.mem_singleton]
        by_cases hcold : c = s.membership.getD v 0
        · subst hcold
          rw [hX]
          exact ⟨fun _ => Or.inr rfl, fun _ => hE⟩
        · by_cases hcnew : c = newComm
          · subst hcnew
            rw [hY]
            constructor
            · intro hh
              omega
            · rintro (hh | hh)
              · exact absurd hh hnewnot
              · exact absurd hh hno
          · rw [hother c hcold hcnew, hiff c hc]
            constructor
            · intro hh
              exact Or.inl hh
            · rintro (hh | hh)
              · exact hh
              · exact absurd hh hcold
    · rw [if_neg hE, if_pos hF]
      refine ⟨nodup_removeLastOcc _ hnd, ?_, ?_⟩
      · intro c hc
        rw [mem_removeLastOcc_of_nodup hnd] at hc
        exact hbnd c hc.1
      · intro c hc
        rw [mem_removeLastOcc_of_nodup hnd]
        by_cases hcold : c = s.membership.getD v 0
        · subst hcold
          rw [hX]
          constructor
          · intro hh
            exact absurd hh hE
          · rintro ⟨hh, _⟩
            exact absurd ((hiff _ hold).2 hh) (by omega)
        · by_cases hcnew : c = newComm
          · subst hcnew
            rw [hY]
            constructor
            · intro hh
              omega
            · rintro ⟨_, hne⟩
              exact absurd rfl hne
          · rw [hother c hcold hcnew, hiff c hc]
            exact ⟨fun hh => ⟨hh, hcnew⟩, fun hh => hh.1⟩
    · rw [if_neg hE, if_neg hF]
      have hnewnot : newComm ∉ s.empty_communities := fun hmem => hF (hnewiff.2 hmem)
      refine ⟨hnd, hbnd, ?_⟩
      intro c hc
      by_cases hcold : c = s.membership.getD v 0
      · subst hcold
        rw [hX]
        constructor
        · intro hh
          exact absurd hh hE
        · intro hh
          exact absurd ((hiff _ hold).2 hh) (by omega)
      · by_cases hcnew : c = newComm
        · subst hcnew
          rw [hY]
          constructor
          · intro hh
            omega
          · intro hh
            exact absurd hh hnewnot
        · rw [hother c hcold hcnew]
          exact hiff c hc

theorem add_empty_PoolInv (g : Graph) (s s2 : Partition) (c : ℕ)
    (hWF : WF g s) (hPool : PoolInv s) (h : add_empty_community g s = .ok (s2, c)) :
    PoolInv s2 := by
  obtain ⟨h1, h2, h3, h4, h5⟩ := hWF
  obtain ⟨hnd, hbnd, hiff⟩ := hPool
  unfold add_empty_community at h
  by_cases hcap : g.n < (s.community ++ [(∅ : Finset ℕ)]).length
  · rw [if_pos hcap] at h
    exact absurd h (by simp)
  · rw [if_neg hcap] at h
    simp only [Except.ok.injEq, Prod.mk.injEq] at h
    obtain ⟨hs2, hcc⟩ := h
    subst hs2
    have hlen : (s.community ++ [(∅ : Finset ℕ)]).length = s.community.length + 1 := by
      simp
    have hnewnot : (s.community ++ [(∅ : Finset ℕ)]).length - 1 ∉ s.empty_communities := by
      intro hmem
      have := hbnd _ hmem
      omega
    unfold PoolInv
    dsimp only
    refine ⟨nodup_pool_push hnd hnewnot, ?_, ?_⟩
    · intro c2 hc2
      rcases List.mem_append.1 hc2 with hcp | hcs
      · have := hbnd c2 hcp
        omega
      · simp only [List.mem_singleton] at hcs
        omega
    · intro c2 hc2
      simp only [hlen] at hc2
      rw [List.mem_append, List.mem_singleton]
      have hset : ((resizeN s.csizes (s.community ++ [(∅ : Finset ℕ)]).length).set
          ((s.community ++ [(∅ : Finset ℕ)]).length - 1) 0).getD c2 0 =
          if c2 = s.community.length then 0
          else (resizeN s.csizes (s.community.length + 1)).getD c2 0 := by
        rw [hlen]
        by_cases hce : c2 = s.community.length
        · subst hce
          rw [if_pos rfl]
          have he : s.community.length + 1 - 1 = s.community.length := by omega
          rw [he]
          exact getD_set_self _ _ _ _ (by rw [length_resizeN]; omega)
        · rw [if_neg hce]
          exact getD_set_ne _ _ _ (by omega)
      rw [hset]
      by_cases hce : c2 = s.community.length
      · subst hce
        rw [if_pos rfl]
        simp only [hlen]
        constructor
        · intro _
          exact Or.inr (by omega)
        · intro _
          trivial
      · rw [if_neg hce, getD_resizeN, if_pos (by omega), hiff c2 (by omega)]
        constructor
        · intro hh
          exact Or.inl hh
        · rintro (hh | hh)
          · exact hh
          · exfalso
            omega

theorem get_empty_cases (g : Graph) (s s2 : Partition) (c : ℕ)
    (h : get_empty_community g s = .ok (s2, c)) :
    s2 = s ∨ ∃ c2, add_empty_community g s = .ok (s2, c2) := by
  unfold get_empty_community at h
  by_cases he : s.empty_communities.isEmpty
  · rw [if_pos he] at h
    cases haa : add_empty_community g s with
    | error s3 =>
      rw [haa] at h
      exact absurd h (by simp)
    | ok p =>
      obtain ⟨s3, c3⟩ := p
      rw [haa] at h
      simp only [Except.ok.injEq, Prod.mk.injEq] at h
      refine Or.inr ⟨c3, ?_⟩
      rw [h.1]
  · rw [if_neg he] at h
    simp only [Except.ok.injEq, Prod.mk.injEq] at h
    exact Or.inl h.1.symm

/-- The states of the empty-pool claim: construction from a membership whose
community ids are contiguous (no skipped id below the maximum), followed by
`move_node`, `add_empty_community` and `get_empty_community`. -/
inductive PoolReachable (g : Graph) : Partition → Prop where
  | init : ∀ m : List ℕ, m.length = g.n →
      (∀ c, c < nbComms m → ∃ v, v < m.length ∧ m.getD v 0 = c) →
      PoolReachable g (init_admin g m emptyPartition)
  | move : ∀ s v newComm, PoolReachable g s → v < g.n → newComm < s.community.length →
      PoolReachable g (move_node g s v newComm)
  | addEmpty : ∀ s s2 c, PoolReachable g s → add_empty_community g s = .ok (s2, c) →
      PoolReachable g s2
  | getEmpty : ∀ s s2 c, PoolReachable g s → get_empty_community g s = .ok (s2, c) →
      PoolReachable g s2

theorem poolReachable_WF_PoolInv (g : Graph) (s : Partition)
    (hpos : ∀ u, 0 < g.nodeSize u) (h : PoolReachable g s) : WF g s ∧ PoolInv s := by
  induction h with
  | init m hm hgap =>
    exact ⟨init_admin_WF g m emptyPartition hm, init_admin_PoolInv g m hm hgap hpos⟩
  | move s v newComm _ hv hnc ih =>
    exact ⟨move_node_WF g s v newComm ih.1 hv hnc,
      move_node_PoolInv g s v newComm ih.1 ih.2 hpos hv hnc⟩
  | addEmpty s s2 c _ hok ih =>
    exact ⟨add_empty_community_WF g s s2 c ih.1 hok,
      add_empty_PoolInv g s s2 c ih.1 ih.2 hok⟩
  | getEmpty s s2 c _ hok ih =>
    rcases get_empty_cases g s s2 c hok with rfl | ⟨c2, hok2⟩
    · exact ih
    · exact ⟨add_empty_community_WF g s s2 c2 ih.1 hok2,
        add_empty_PoolInv g s s2 c2 ih.1 ih.2 hok2⟩

/-! ## Cache correctness -/

/-- The direct recomputation the spec compares the cache against: the summed
weight of `v`'s incident edges (in the given direction list) whose other
endpoint lies in community `c`, an undirected self-loop's occurrence halved. -/
def directWeight (g : Graph) (m : List ℕ) (v c : ℕ) (L : List (ℕ × ℕ)) : ℚ :=
  (L.map (fun ue =>
    if m.getD ue.1 0 = c then
      (if ue.1 = v ∧ g.directed = false then g.edgeWeight ue.2 / 2 else g.edgeWeight ue.2)
    else 0)).sum

theorem length_cacheResetZero (w : List ℚ) (nb : List ℕ) :
    (cacheResetZero w nb).length = w.length := by
  unfold cacheResetZero
  induction nb generalizing w with
  | nil => rfl
  | cons c rest ih => rw [List.foldl_cons, ih, List.length_set]

theorem cacheResetZero_zero (w : List ℚ) (nb : List ℕ) (n : ℕ) (hw : w.length = n)
    (hb : ∀ j ∈ nb, j < n) (hz : ∀ j, j < n → w.getD j 0 ≠ 0 → j ∈ nb) :
    ∀ j, j < n → (cacheResetZero w nb).getD j 0 = 0 := by
  induction nb generalizing w with
  | nil =>
    intro j hj
    by_contra hne
    exact absurd (hz j hj hne) (List.not_mem_nil j)
  | cons c rest ih =>
    intro j hj
    have hstep : cacheResetZero w (c :: rest) = cacheResetZero (w.set c 0) rest := rfl
    rw [hstep]
    refine ih (w.set c 0) (by rw [List.length_set]; exact hw)
      (fun x hx => hb x (List.mem_cons_of_mem c hx)) ?_ j hj
    intro x hx hnz
    by_cases hxc : x = c
    · exfalso
      subst hxc
      rw [getD_set_self _ _ _ _ (by omega)] at hnz
      exact hnz rfl
    · rw [getD_set_ne _ _ _ (fun hh => hxc hh.symm)] at hnz
      rcases List.mem_cons.1 (hz x hx hnz) with hh | hh
      · exact absurd hh hxc
      · exact hh

/-- The per-edge accumulated weight of `cache_neigh_communities` (an undirected
self-loop occurrence halved). -/
def cacheW (g : Graph) (v : ℕ) (ue : ℕ × ℕ) : ℚ :=
  if ue.1 = v ∧ g.directed = false then g.edgeWeight ue.2 / 2 else g.edgeWeight ue.2

theorem cacheAccumStep_eq (g : Graph) (m : List ℕ) (v : ℕ) (acc : List ℚ × List ℕ)
    (ue : ℕ × ℕ) :
    cacheAccumStep g m v acc ue =
      (addAt acc.1 (m.getD ue.1 0) (cacheW g v ue),
       if (addAt acc.1 (m.getD ue.1 0) (cacheW g v ue)).getD (m.getD ue.1 0) 0 ≠ 0 then
         acc.2 ++ [m.getD ue.1 0]
       else acc.2) := by
  simp only [cacheAccumStep, cacheW]
  split_ifs <;> rfl

theorem cacheAccum_length (g : Graph) (m : List ℕ) (v : ℕ) (L : List (ℕ × ℕ))
    (acc : List ℚ × List ℕ) :
    ((L.foldl (cacheAccumStep g m v) acc).1).length = acc.1.length := by
  induction L generalizing acc with
  | nil => rfl
  | cons ue rest ih =>
    rw [List.foldl_cons, ih, cacheAccumStep_eq]
    by_cases hcond :
        (addAt acc.1 (m.getD ue.1 0) (cacheW g v ue)).getD (m.getD ue.1 0) 0 ≠ 0 <;>
      simp [hcond, addAt]

theorem cacheAccum_getD (g : Graph) (m : List ℕ) (v : ℕ) (L : List (ℕ × ℕ))
    (acc : List ℚ × List ℕ) (n : ℕ) (hlen : acc.1.length = n)
    (hmem : ∀ ue ∈ L, m.getD ue.1 0 < n) (j : ℕ) (hj : j < n) :
    ((L.foldl (cacheAccumStep g m v) acc).1).getD j 0 =
      acc.1.getD j 0 + directWeight g m v j L := by
  induction L generalizing acc with
  | nil =>
    simp [directWeight]
  | cons ue rest ih =>
    rw [List.foldl_cons]
    have hlen2 : (cacheAccumStep g m v acc ue).1.length = n := by
      rw [cacheAccumStep_eq, length_addAt, hlen]
    rw [ih (cacheAccumStep g m v acc ue) hlen2
      (fun x hx => hmem x (List.mem_cons_of_mem ue hx)), cacheAccumStep_eq]
    show (addAt acc.1 (m.getD ue.1 0) (cacheW g v ue)).getD j 0 + _ = _
    rw [getD_addAt, hlen]
    unfold directWeight cacheW
    rw [List.map_cons, List.sum_cons]
    by_cases hcj : m.getD ue.1 0 = j
    · rw [if_pos ⟨hcj.symm, hj⟩, if_pos hcj]
      show _ = acc.1.getD j 0 + (_ + (directWeight g m v j rest))
      unfold directWeight
      ring
    · rw [if_neg (fun hh => hcj hh.1.symm), if_neg hcj]
      show _ = acc.1.getD j 0 + (0 + (directWeight g m v j rest))
      unfold directWeight
      ring

theorem cacheAccum_inv (g : Graph) (m : List ℕ) (v : ℕ) (L : List (ℕ × ℕ))
    (acc : List ℚ × List ℕ) (n : ℕ) (hlen : acc.1.length = n)
    (hb : ∀ j ∈ acc.2, j < n) (hmemL : ∀ ue ∈ L, m.getD ue.1 0 < n)
    (hz : ∀ j, j < n → acc.1.getD j 0 ≠ 0 → j ∈ acc.2) :
    (∀ j ∈ (L.foldl (cacheAccumStep g m v) acc).2, j < n) ∧
    (∀ j, j < n → ((L.foldl (cacheAccumStep g m v) acc).1).getD j 0 ≠ 0 →
      j ∈ (L.foldl (cacheAccumStep g m v) acc).2) := by
  induction L generalizing acc with
  | nil => exact ⟨hb, hz⟩
  | cons ue rest ih =>
    rw [List.foldl_cons]
    have hcommlt := hmemL ue (List.mem_cons_self ue rest)
    refine ih (cacheAccumStep g m v acc ue)
      (by rw [cacheAccumStep_eq, length_addAt, hlen]) ?_
      (fun x hx => hmemL x (List.mem_cons_of_mem ue hx)) ?_
    · intro x hx
      rw [cacheAccumStep_eq] at hx
      by_cases hcond :
          (addAt acc.1 (m.getD ue.1 0) (cacheW g v ue)).getD (m.getD ue.1 0) 0 ≠ 0
      · rw [if_pos hcond] at hx
        rcases List.mem_append.1 hx with hh | hh
        · exact hb x hh
        · simp only [List.mem_singleton] at hh
          subst hh
          exact hcommlt
      · rw [if_neg hcond] at hx
        exact hb x hx
    · intro x hx hnz
      rw [cacheAccumStep_eq] at hnz ⊢
      by_cases hcond :
          (addAt acc.1 (m.getD ue.1 0) (cacheW g v ue)).getD (m.getD ue.1 0) 0 ≠ 0
      · rw [if_pos hcond]
        by_cases hxc : x = m.getD ue.1 0
        · subst hxc
          exact List.mem_append_right _ (by simp)
        · show x ∈ acc.2 ++ [m.getD ue.1 0]
          refine List.mem_append_left _ (hz x hx ?_)
          show acc.1.getD x 0 ≠ 0
          have := (getD_addAt acc.1 (m.getD ue.1 0) x (cacheW g v ue))
          rw [if_neg (fun hh => hxc hh.1)] at this
          show acc.1.getD x 0 ≠ 0
          rw [add_zero] at this
          rw [← this]
          exact hnz
      · rw [if_neg hcond]
        by_cases hxc : x = m.getD ue.1 0
        · exfalso
          subst hxc
          exact hnz (by simpa using hcond)
        · refine hz x hx ?_
          have := (getD_addAt acc.1 (m.getD ue.1 0) x (cacheW g v ue))
          rw [if_neg (fun hh => hxc hh.1), add_zero] at this
          rw [← this]
          exact hnz

theorem get?_eq_some_getD {α : Type} (l : List α) (c : ℕ) (d : α) (h : c < l.length) :
    l[c]? = some (l.getD c d) := by
  induction l generalizing c with
  | nil => simp at h
  | cons x xs ih =>
    cases c with
    | zero => simp
    | succ j =>
      rw [List.getElem?_cons_succ, List.getD_cons_succ]
      exact ih j (by simpa using h)

theorem cacheFill_correct (g : Graph) (m : List ℕ) (v : ℕ) (mode : NeighMode)
    (weights : List ℚ) (neighs : List ℕ) (n : ℕ) (hw : weights.length = n)
    (hb : ∀ j ∈ neighs, j < n)
    (hz : ∀ j, j < n → weights.getD j 0 ≠ 0 → j ∈ neighs)
    (hmemL : ∀ ue ∈ g.neigh mode v, m.getD ue.1 0 < n) :
    (∀ j, j < n → (cacheFill g m v mode weights neighs).1.getD j 0 =
      directWeight g m v j (g.neigh mode v)) ∧
    (cacheFill g m v mode weights neighs).1.length = n ∧
    (∀ j ∈ (cacheFill g m v mode weights neighs).2, j < n) ∧
    (∀ j, j < n → (cacheFill g m v mode weights neighs).1.getD j 0 ≠ 0 →
      j ∈ (cacheFill g m v mode weights neighs).2) := by
  have hrlen : (cacheResetZero weights neighs).length = n := by
    rw [length_cacheResetZero, hw]
  have hrzero := cacheResetZero_zero weights neighs n hw hb hz
  refine ⟨?_, ?_, ?_, ?_⟩
  · intro j hj
    unfold cacheFill
    rw [cacheAccum_getD g m v _ _ n hrlen hmemL j hj, hrzero j hj, zero_add]
  · unfold cacheFill
    rw [cacheAccum_length, hrlen]
  · exact (cacheAccum_inv g m v _ _ n hrlen (by simp) hmemL
      (fun j hj hnz => absurd (hrzero j hj) hnz)).1
  · exact (cacheAccum_inv g m v _ _ n hrlen (by simp) hmemL
      (fun j hj hnz => absurd (hrzero j hj) hnz)).2

/-- The cache-consistency precondition of one direction of the weight cache:
the weight vector spans the `n` community slots, and the touched list records
exactly (at least) the nonzero entries, all in range. -/
def CacheDirOK (weights : List ℚ) (neighs : List ℕ) (n : ℕ) : Prop :=
  weights.length = n ∧ (∀ j ∈ neighs, j < n) ∧
    (∀ j, j < n → weights.getD j 0 ≠ 0 → j ∈ neighs)

theorem weight_to_comm_warm (g : Graph) (s2 : Partition) (v c2 : ℕ)
    (hm : s2.current_node_cache_community_to = v) :
    weight_to_comm g s2 v c2 = (s2.cached_weight_to_community[c2]?, s2) := by
  simp only [weight_to_comm]
  rw [if_neg (by rw [hm]; exact fun hcon => hcon rfl)]

theorem weight_from_comm_warm (g : Graph) (s2 : Partition) (v c2 : ℕ)
    (hm : s2.current_node_cache_community_from = v) :
    weight_from_comm g s2 v c2 = (s2.cached_weight_from_community[c2]?, s2) := by
  simp only [weight_from_comm]
  rw [if_neg (by rw [hm]; exact fun hcon => hcon rfl)]

theorem weight_to_comm_correct (g : Graph) (s : Partition) (v c : ℕ) (hc : c < g.n)
    (hok : CacheDirOK s.cached_weight_to_community s.cached_neigh_comms_to g.n)
    (hmemL : ∀ ue ∈ g.neigh .modeOut v, s.membership.getD ue.1 0 < g.n)
    (hmark : s.current_node_cache_community_to ≠ v) :
    (weight_to_comm g s v c).1 =
      some (directWeight g s.membership v c (g.neigh .modeOut v)) ∧
    (∀ c2, c2 < g.n →
      (weight_to_comm g (weight_to_comm g s v c).2 v c2).1 =
        some (directWeight g s.membership v c2 (g.neigh .modeOut v)) ∧
      (weight_to_comm g (weight_to_comm g s v c).2 v c2).2 =
        (weight_to_comm g s v c).2) := by
  obtain ⟨hw, hb, hz⟩ := hok
  have hfc := cacheFill_correct g s.membership v .modeOut
    s.cached_weight_to_community s.cached_neigh_comms_to g.n hw hb hz hmemL
  have hs2 : (weight_to_comm g s v c).2 =
      { cache_neigh_communities g s v .modeOut with
        current_node_cache_community_to := v } := by
    unfold weight_to_comm
    rw [if_pos hmark]
  have hcache : ∀ c2, c2 < g.n →
      ({ cache_neigh_communities g s v .modeOut with
        current_node_cache_community_to := v } :
          Partition).cached_weight_to_community[c2]? =
        some (directWeight g s.membership v c2 (g.neigh .modeOut v)) := by
    intro c2 hc2
    show (cacheFill g s.membership v .modeOut s.cached_weight_to_community
      s.cached_neigh_comms_to).1[c2]? = _
    rw [get?_eq_some_getD _ c2 0 (by rw [hfc.2.1]; exact hc2), hfc.1 c2 hc2]
  refine ⟨?_, ?_⟩
  · show ((weight_to_comm g s v c).2).cached_weight_to_community[c]? = _
    rw [hs2]
    exact hcache c hc
  · intro c2 hc2
    have hm : ((weight_to_comm g s v c).2).current_node_cache_community_to = v := by
      rw [hs2]
    rw [weight_to_comm_warm g _ v c2 hm]
    refine ⟨?_, rfl⟩
    show ((weight_to_comm g s v c).2).cached_weight_to_community[c2]? = _
    rw [hs2]
    exact hcache c2 hc2

theorem weight_from_comm_correct (g : Graph) (s : Partition) (v c : ℕ) (hc : c < g.n)
    (hok : CacheDirOK s.cached_weight_from_community s.cached_neigh_comms_from g.n)
    (hmemL : ∀ ue ∈ g.neigh .modeIn v, s.membership.getD ue.1 0 < g.n)
    (hmark : s.current_node_cache_community_from ≠ v) :
    (weight_from_comm g s v c).1 =
      some (directWeight g s.membership v c (g.neigh .modeIn v)) ∧
    (∀ c2, c2 < g.n →
      (weight_from_comm g (weight_from_comm g s v c).2 v c2).1 =
        some (directWeight g s.membership v c2 (g.neigh .modeIn v)) ∧
      (weight_from_comm g (weight_from_comm g s v c).2 v c2).2 =
        (weight_from_comm g s v c).2) := by
  obtain ⟨hw, hb, hz⟩ := hok
  have hfc := cacheFill_correct g s.membership v .modeIn
    s.cached_weight_from_community s.cached_neigh_comms_from g.n hw hb hz hmemL
  have hs2 : (weight_from_comm g s v c).2 =
      { cache_neigh_communities g s v .modeIn with
        current_node_cache_community_from := v } := by
    unfold weight_from_comm
    rw [if_pos hmark]
  have hcache : ∀ c2, c2 < g.n →
      ({ cache_neigh_communities g s v .modeIn with
        current_node_cache_community_from := v } :
          Partition).cached_weight_from_community[c2]? =
        some (directWeight g s.membership v c2 (g.neigh .modeIn v)) := by
    intro c2 hc2
    show (cacheFill g s.membership v .modeIn s.cached_weight_from_community
      s.cached_neigh_comms_from).1[c2]? = _
    rw [get?_eq_some_getD _ c2 0 (by rw [hfc.2.1]; exact hc2), hfc.1 c2 hc2]
  refine ⟨?_, ?_⟩
  · show ((weight_from_comm g s v c).2).cached_weight_from_community[c]? = _
    rw [hs2]
    exact hcache c hc
  · intro c2 hc2
    have hm : ((weight_from_comm g s v c).2).current_node_cache_community_from = v := by
      rw [hs2]
    rw [weight_from_comm_warm g _ v c2 hm]
    refine ⟨?_, rfl⟩
    show ((weight_from_comm g s v c).2).cached_weight_from_community[c2]? = _
    rw [hs2]
    exact hcache c2 hc2

theorem isSome_getElemOpt {α : Type} (l : List α) (c : ℕ) :
    l[c]?.isSome = true ↔ c < l.length := by
  induction l generalizing c with
  | nil => simp
  | cons x xs ih =>
    cases c with
    | zero => simp
    | succ j =>
      rw [List.getElem?_cons_succ, List.length_cons]
      rw [ih j]
      omega

theorem init_admin_cache_to_length (g : Graph) (m : List ℕ) (prev : Partition) :
    (init_admin g m prev).cached_weight_to_community.length = g.n :=
  length_resizeQ prev.cached_weight_to_community g.n

theorem init_admin_cache_from_length (g : Graph) (m : List ℕ) (prev : Partition) :
    (init_admin g m prev).cached_weight_from_community.length = g.n :=
  length_resizeQ prev.cached_weight_from_community g.n

theorem weight_to_comm_fst_eq (g : Graph) (s : Partition) (v c : ℕ) :
    (weight_to_comm g s v c).1 =
      ((weight_to_comm g s v c).2).cached_weight_to_community[c]? := by
  simp only [weight_to_comm]

theorem weight_from_comm_fst_eq (g : Graph) (s : Partition) (v c : ℕ) :
    (weight_from_comm g s v c).1 =
      ((weight_from_comm g s v c).2).cached_weight_from_community[c]? := by
  simp only [weight_from_comm]

theorem weight_to_comm_cache_length (g : Graph) (s : Partition) (v c : ℕ) :
    ((weight_to_comm g s v c).2).cached_weight_to_community.length =
      s.cached_weight_to_community.length := by
  simp only [weight_to_comm]
  split_ifs with h
  · show (cacheFill g s.membership v .modeOut s.cached_weight_to_community
      s.cached_neigh_comms_to).1.length = _
    unfold cacheFill
    rw [cacheAccum_length, length_cacheResetZero]
  · rfl

theorem weight_from_comm_cache_length (g : Graph) (s : Partition) (v c : ℕ) :
    ((weight_from_comm g s v c).2).cached_weight_from_community.length =
      s.cached_weight_from_community.length := by
  simp only [weight_from_comm]
  split_ifs with h
  · show (cacheFill g s.membership v .modeIn s.cached_weight_from_community
      s.cached_neigh_comms_from).1.length = _
    unfold cacheFill
    rw [cacheAccum_length, length_cacheResetZero]
  · rfl

theorem csize_out_of_slots (s : Partition) (c : ℕ) (h : s.csizes.length ≤ c) :
    s.csize c = 0 :=
  getD_of_length_le s.csizes h 0

theorem add_empty_ok_le (g : Graph) (s s2 : Partition) (c : ℕ)
    (h : add_empty_community g s = .ok (s2, c)) : s2.nb_communities ≤ g.n := by
  simp only [add_empty_community] at h
  split_ifs at h with hcap
  all_goals cases h
  show (s.community ++ [∅]).length ≤ g.n
  omega

/-! ## Concrete instances -/

/-- A 4-vertex undirected unit-weight path graph (edges 0-1, 1-2, 2-3). -/
def gPath : Graph where
  n := 4
  directed := false
  nodeSize := fun _ => 1
  edgeWeight := fun _ => 1
  neighOut := fun v =>
    if v = 0 then [(1, 0)] else if v = 1 then [(0, 0), (2, 1)]
    else if v = 2 then [(1, 1), (3, 2)] else if v = 3 then [(2, 2)] else []
  neighIn := fun v =>
    if v = 0 then [(1, 0)] else if v = 1 then [(0, 0), (2, 1)]
    else if v = 2 then [(1, 1), (3, 2)] else if v = 3 then [(2, 2)] else []
  neighAll := fun v =>
    if v = 0 then [(1, 0)] else if v = 1 then [(0, 0), (2, 1)]
    else if v = 2 then [(1, 1), (3, 2)] else if v = 3 then [(2, 2)] else []

/-- The singleton partition of the path graph. -/
def s0 : Partition := init_admin gPath [0, 1, 2, 3] emptyPartition

/-- A 2-vertex edgeless graph. -/
def gTwo : Graph where
  n := 2
  directed := false
  nodeSize := fun _ => 1
  edgeWeight := fun _ => 1
  neighOut := fun _ => []
  neighIn := fun _ => []
  neighAll := fun _ => []

/-- The two-community partition of `gTwo` with the ids swapped. -/
def sC3 : Partition := init_admin gTwo [1, 0] emptyPartition

/-- The two-community partition of `gTwo` in id order. -/
def sC4 : Partition := init_admin gTwo [0, 1] emptyPartition

/-- A partition of `gTwo` built from a membership with skipped ids. -/
def sGap10 : Partition := init_admin gTwo [0, 5] emptyPartition

/-- A partition of `gTwo` built from `[0, 2]`: slot 1 is allocated but empty. -/
def sGap1 : Partition := init_admin gTwo [0, 2] emptyPartition

/-- The one-community partition of `gTwo`. -/
def sOne : Partition := init_admin gTwo [0, 0] emptyPartition

/-- The state `add_empty_community` produces from `sOne`. -/
def sOneGrown : Partition :=
  { sOne with
    community := sOne.community ++ [∅]
    csizes := (resizeN sOne.csizes 2).set 1 0
    total_weight_in_comm := (resizeQ sOne.total_weight_in_comm 2).set 1 0
    total_weight_from_comm := (resizeQ sOne.total_weight_from_comm 2).set 1 0
    total_weight_to_comm := (resizeQ sOne.total_weight_to_comm 2).set 1 0
    empty_communities := sOne.empty_communities ++ [1] }

theorem getD_map_range {α : Type} (f : ℕ → α) (n v : ℕ) (d : α) (hv : v < n) :
    ((List.range n).map f).getD v d = f v := by
  rw [List.getD_eq_getElem?_getD, List.getElem?_map, List.getElem?_range hv]
  rfl

instance (w : List ℚ) (nb : List ℕ) (n : ℕ) : Decidable (CacheDirOK w nb n) := by
  unfold CacheDirOK
  infer_instance

deriving instance DecidableEq for Except

/-! ## Definedness of the pool erase inside `move_node` -/

theorem move_node_defined_of_poolInv (g : Graph) (s : Partition) (v newComm : ℕ)
    (hPool : PoolInv s) (hnc : newComm < s.community.length) :
    move_node_defined g s v newComm := by
  simp only [move_node_defined]
  intro hzero
  obtain ⟨hnd, hb, hiff⟩ := hPool
  by_cases hon : newComm = s.membership.getD v 0
  · rw [hon] at hzero
    rw [if_pos hzero]
    refine List.mem_append_right _ ?_
    rw [hon]
    exact List.mem_singleton_self _
  · have hsz : (subAtN s.csizes (s.membership.getD v 0) (g.nodeSize v)).getD
        newComm 0 = s.csizes.getD newComm 0 := by
      have hne : ¬ (newComm = s.membership.getD v 0 ∧ newComm < s.csizes.length) :=
        fun hc => hon hc.1
      rw [getD_subAtN, if_neg hne, Nat.sub_zero]
    rw [hsz] at hzero
    have hmem := (hiff newComm hnc).1 hzero
    split_ifs
    · exact List.mem_append_left _ hmem
    · exact hmem

theorem move_node_community_length (g : Graph) (s : Partition) (v newComm : ℕ) :
    (move_node g s v newComm).community.length = s.community.length := by
  rw [move_node_eq]
  simp only [moveClosed, length_updAt]

/-- Construction from a gapless membership followed by `move_node` calls with
valid arguments: the domain of the amended running-scalar claim, on which
every mid-move pool erase finds its element. -/
inductive SafeMoveReachable (g : Graph) : Partition → Prop where
  | init : ∀ m : List ℕ, m.length = g.n →
      (∀ c, c < nbComms m → ∃ v, v < m.length ∧ m.getD v 0 = c) →
      SafeMoveReachable g (init_admin g m emptyPartition)
  | move : ∀ s v newComm, SafeMoveReachable g s → v < g.n →
      newComm < s.community.length → SafeMoveReachable g (move_node g s v newComm)

theorem safeMoveReachable_WF_PE_Pool (g : Graph) (s : Partition)
    (hpos : ∀ u, 0 < g.nodeSize u) (h : SafeMoveReachable g s) :
    WF g s ∧ PEInv g s ∧ PoolInv s := by
  induction h with
  | init m hm hgap =>
    refine ⟨init_admin_WF g m emptyPartition hm, ?_,
      init_admin_PoolInv g m hm hgap hpos⟩
    unfold PEInv
    rw [init_admin_total_possible, init_admin_community, init_admin_csizes,
      length_initCommunity]
    exact initTotalPossible_eq_sum g _ _
  | move s v newComm _ hv hnc ih =>
    exact ⟨move_node_WF g s v newComm ih.1 hv hnc,
      move_node_PE g s v newComm ih.1 ih.2.1 hv hnc,
      move_node_PoolInv g s v newComm ih.1 ih.2.2 hpos hv hnc⟩

/-! ## The claims -/

/-- Claim C1, counterexample: construction from the length-correct membership
`[0, 2]` allocates slot 1 with size 0, yet `init_admin` leaves the
empty-community pool empty, so `size = 0` does not imply pooled. -/
theorem claim_C1_counterexample :
    mkPartition gTwo [0, 2] = .ok sGap1 ∧
    1 < sGap1.nb_communities ∧ sGap1.csize 1 = 0 ∧
    1 ∉ sGap1.empty_communities :=
  ⟨rfl, by decide, by decide, by decide⟩

/-- Claim C1, amended: on states built from a membership whose community ids
are gapless, and evolved by `move_node`, `add_empty_community` and
`get_empty_community` on a graph with positive node sizes, an allocated slot
has size zero exactly when it is in the empty-community pool. -/
theorem claim_C1 (g : Graph) (s : Partition) (hpos : ∀ u, 0 < g.nodeSize u)
    (h : PoolReachable g s) :
    ∀ c, c < s.nb_communities → (s.csize c = 0 ↔ c ∈ s.empty_communities) :=
  fun c hc => (poolReachable_WF_PoolInv g s hpos h).2.2.2 c hc

theorem claim_C1_witness :
    (∀ u, 0 < gPath.nodeSize u) ∧ PoolReachable gPath s0 ∧
    (∀ c, c < s0.nb_communities → (s0.csize c = 0 ↔ c ∈ s0.empty_communities)) :=
  ⟨fun u => Nat.one_pos,
   PoolReachable.init [0, 1, 2, 3] (by decide) (by decide),
   claim_C1 gPath s0 (fun u => Nat.one_pos)
     (PoolReachable.init [0, 1, 2, 3] (by decide) (by decide))⟩

/-- Claim C2, counterexample: `add_empty_community` at capacity raises only
after pushing the new slot, so the error state differs from the pre-call
state. -/
theorem claim_C2_counterexample :
    add_empty_community gTwo sC4 =
      .error { sC4 with community := sC4.community ++ [∅] } ∧
    ({ sC4 with community := sC4.community ++ [∅] } : Partition).community ≠
      sC4.community :=
  ⟨rfl, by decide⟩

/-- Claim C2, amended: the constructor checks the membership length before
building any state, but a failing `add_empty_community` raises only after
extending the community vector: its error state is the pre-call state with
one extra (empty) slot. -/
theorem claim_C2 (g : Graph) (s : Partition) (m : List ℕ) (e : PartitionError)
    (s2 : Partition) :
    (mkPartition g m = .error e → e = .invalidArgument ∧ m.length ≠ g.n) ∧
    (add_empty_community g s = .error s2 →
      g.n < s.nb_communities + 1 ∧
      s2 = { s with community := s.community ++ [∅] }) := by
  constructor
  · intro h
    simp only [mkPartition] at h
    split_ifs at h with hl
    all_goals cases h
    exact ⟨rfl, hl⟩
  · intro h
    simp only [add_empty_community] at h
    split_ifs at h with hcap
    all_goals cases h
    refine ⟨?_, rfl⟩
    show g.n < s.community.length + 1
    simpa using hcap

theorem claim_C2_witness :
    (mkPartition gTwo [0, 1, 2] = .error .invalidArgument) ∧
    (PartitionError.invalidArgument = .invalidArgument ∧ [0, 1, 2].length ≠ gTwo.n) :=
  ⟨rfl, (claim_C2 gTwo sC4 [0, 1, 2] .invalidArgument emptyPartition).1 rfl⟩

/-- Claim C3, counterexample: reconstruction from the explicit vector `[5, 7]`
on the membership `[1, 0]` yields membership `[5, 7]` (entrywise copy), not
`mapping[old_id]` (which would put `mapping[1] = 7` at vertex 0). -/
theorem claim_C3_counterexample :
    (renumber_communities_map gTwo sC3 [5, 7]).map
      (fun s2 => s2.membership.getD 0 0) = some 5 ∧
    [5, 7].getD (sC3.membership.getD 0 0) 0 = 7 := by decide

/-- Claim C3, amended: `renumber_communities(new_membership)` copies the
supplied vector entrywise into the membership (it is a replacement vector,
not an `old_id -> new_id` relabeling) and rebuilds all aggregates through a
full re-initialization, so the result is well-formed. -/
theorem claim_C3 (g : Graph) (s s2 : Partition) (m : List ℕ)
    (h : renumber_communities_map g s m = some s2) :
    (∀ v, v < g.n → s2.membership.getD v 0 = m.getD v 0) ∧ WF g s2 := by
  simp only [renumber_communities_map] at h
  split_ifs at h with hlen
  injection h with h2
  subst h2
  constructor
  · intro v hv
    rw [init_admin_membership]
    exact getD_map_range _ _ _ _ hv
  · exact init_admin_WF g _ s (by simp)

theorem claim_C3_witness :
    ∃ s2, renumber_communities_map gTwo sC4 [1, 1] = some s2 ∧
      ((∀ v, v < gTwo.n → s2.membership.getD v 0 = [1, 1].getD v 0) ∧
        WF gTwo s2) :=
  ⟨_, rfl, claim_C3 gTwo sC4 _ [1, 1] rfl⟩

/-- Claim C4, counterexample: reconstruction from a vector longer than the
vertex count succeeds, so a length mismatch does not raise `InvalidArgument`
on the reconstruction path. -/
theorem claim_C4_counterexample :
    (renumber_communities_map gTwo sC4 [0, 0, 9]).isSome = true ∧
    [0, 0, 9].length ≠ gTwo.n := by decide

/-- Claim C4, amended: the constructor raises `InvalidArgument` exactly on a
length mismatch, but the reconstruction path performs no length check: it is
well-defined exactly when the supplied vector has at least `vertex_count`
entries (a longer vector is accepted; a shorter one reads out of bounds). -/
theorem claim_C4 (g : Graph) (s : Partition) (m : List ℕ) :
    (mkPartition g m = .error .invalidArgument ↔ m.length ≠ g.n) ∧
    ((renumber_communities_map g s m).isSome = true ↔ g.n ≤ m.length) := by
  constructor
  · simp only [mkPartition]
    split_ifs with h <;> simp [h]
  · simp only [renumber_communities_map]
    split_ifs with h <;> simp [h]

/-- Claim C5, counterexample: construction accepts the gapped membership
`[0, 2]`; moving vertex 0 into the allocated slot 1 — valid arguments — reads
the new community's size as zero and runs the pool search-and-erase, which
does not find 1 in the (empty) pool: the C++ source erases an invalid reverse
iterator, so this valid-argument `move_node` execution is undefined. -/
theorem claim_C5_counterexample :
    mkPartition gTwo [0, 2] = .ok sGap1 ∧ 0 < gTwo.n ∧
    1 < sGap1.nb_communities ∧ ¬ move_node_defined gTwo sGap1 0 1 :=
  ⟨rfl, by decide, by decide, by decide⟩

/-- Claim C5, amended: on states built from a gapless membership and evolved
by `move_node` with valid arguments, on a graph with positive node sizes,
every `move_node` with valid arguments is defined (its mid-move pool erase
finds its element), and the running scalar
`total_possible_edges_in_all_comms` equals the sum of
`possible_edges(csize(c))` recomputed over all allocated slots, for directed
and undirected graphs alike. -/
theorem claim_C5 (g : Graph) (s : Partition) (hpos : ∀ u, 0 < g.nodeSize u)
    (h : SafeMoveReachable g s) :
    PEInv g s ∧
    (∀ v newComm, v < g.n → newComm < s.nb_communities →
      move_node_defined g s v newComm) := by
  obtain ⟨hWF, hPE, hPool⟩ := safeMoveReachable_WF_PE_Pool g s hpos h
  exact ⟨hPE, fun v newComm hv hnc =>
    move_node_defined_of_poolInv g s v newComm hPool hnc⟩

theorem claim_C5_witness :
    (∀ u, 0 < gPath.nodeSize u) ∧
    SafeMoveReachable gPath (move_node gPath s0 1 0) ∧
    (PEInv gPath (move_node gPath s0 1 0) ∧
     (∀ v newComm, v < gPath.n →
       newComm < (move_node gPath s0 1 0).nb_communities →
       move_node_defined gPath (move_node gPath s0 1 0) v newComm)) :=
  ⟨fun u => Nat.one_pos,
   SafeMoveReachable.move s0 1 0
     (SafeMoveReachable.init [0, 1, 2, 3] (by decide) (by decide))
     (by decide) (by decide),
   claim_C5 gPath (move_node gPath s0 1 0) (fun u => Nat.one_pos)
     (SafeMoveReachable.move s0 1 0
       (SafeMoveReachable.init [0, 1, 2, 3] (by decide) (by decide))
       (by decide) (by decide))⟩

/-- Claim C6, counterexample: the state built from the gapped membership
`[0, 2]` is reachable (plain construction), and the first half of the round
trip with valid arguments — vertex 0 into allocated slot 1 — hits the pool
erase with the element absent: an invalid-iterator erase, undefined behaviour
in the C++ source, before any aggregate is rewritten. -/
theorem claim_C6_counterexample :
    Reachable gTwo sGap1 ∧ 0 < gTwo.n ∧ 1 < sGap1.nb_communities ∧
    ¬ move_node_defined gTwo sGap1 0 1 :=
  ⟨Reachable.init [0, 2] (by decide), by decide, by decide, by decide⟩

/-- Claim C6, amended: on pool-consistent reachable states (gapless
construction, `move_node`, the two pool operations) of a graph with positive
node sizes, both halves of the round trip are defined (each pool erase finds
its element), and moving `v` into any allocated community `A` and then back
into its original community restores the membership, the community sets, the
sizes and every weight aggregate exactly. -/
theorem claim_C6 (g : Graph) (s : Partition) (v A : ℕ)
    (hpos : ∀ u, 0 < g.nodeSize u) (h : PoolReachable g s)
    (hv : v < g.n) (hA : A < s.nb_communities) :
    move_node_defined g s v A ∧
    move_node_defined g (move_node g s v A) v (s.membership.getD v 0) ∧
    ((move_node g (move_node g s v A) v (s.membership.getD v 0)).membership
        = s.membership ∧
     (move_node g (move_node g s v A) v (s.membership.getD v 0)).community
        = s.community ∧
     (move_node g (move_node g s v A) v (s.membership.getD v 0)).csizes
        = s.csizes ∧
     (move_node g (move_node g s v A) v
        (s.membership.getD v 0)).total_weight_in_comm
        = s.total_weight_in_comm ∧
     (move_node g (move_node g s v A) v
        (s.membership.getD v 0)).total_weight_from_comm
        = s.total_weight_from_comm ∧
     (move_node g (move_node g s v A) v
        (s.membership.getD v 0)).total_weight_to_comm
        = s.total_weight_to_comm ∧
     (move_node g (move_node g s v A) v
        (s.membership.getD v 0)).total_weight_in_all_comms
        = s.total_weight_in_all_comms ∧
     (move_node g (move_node g s v A) v
        (s.membership.getD v 0)).total_possible_edges_in_all_comms
        = s.total_possible_edges_in_all_comms) := by
  obtain ⟨hWF, hPool⟩ := poolReachable_WF_PoolInv g s hpos h
  have hPool2 := move_node_PoolInv g s v A hWF hPool hpos hv hA
  have hold : s.membership.getD v 0 < s.community.length := hWF.2.2.1 v hv
  exact ⟨move_node_defined_of_poolInv g s v A hPool hA,
    move_node_defined_of_poolInv g (move_node g s v A) v (s.membership.getD v 0)
      hPool2 (by rw [move_node_community_length]; exact hold),
    move_round_trip_full g s v A hWF hv hA⟩

theorem claim_C6_witness :
    (∀ u, 0 < gPath.nodeSize u) ∧ PoolReachable gPath s0 ∧
    1 < gPath.n ∧ 3 < s0.nb_communities ∧
    (move_node_defined gPath s0 1 3 ∧
     move_node_defined gPath (move_node gPath s0 1 3) 1 (s0.membership.getD 1 0) ∧
     ((move_node gPath (move_node gPath s0 1 3) 1 (s0.membership.getD 1 0)).membership
        = s0.membership ∧
     (move_node gPath (move_node gPath s0 1 3) 1 (s0.membership.getD 1 0)).community
        = s0.community ∧
     (move_node gPath (move_node gPath s0 1 3) 1 (s0.membership.getD 1 0)).csizes
        = s0.csizes ∧
     (move_node gPath (move_node gPath s0 1 3) 1
        (s0.membership.getD 1 0)).total_weight_in_comm
        = s0.total_weight_in_comm ∧
     (move_node gPath (move_node gPath s0 1 3) 1
        (s0.membership.getD 1 0)).total_weight_from_comm
        = s0.total_weight_from_comm ∧
     (move_node gPath (move_node gPath s0 1 3) 1
        (s0.membership.getD 1 0)).total_weight_to_comm
        = s0.total_weight_to_comm ∧
     (move_node gPath (move_node gPath s0 1 3) 1
        (s0.membership.getD 1 0)).total_weight_in_all_comms
        = s0.total_weight_in_all_comms ∧
     (move_node gPath (move_node gPath s0 1 3) 1
        (s0.membership.getD 1 0)).total_possible_edges_in_all_comms
        = s0.total_possible_edges_in_all_comms)) :=
  ⟨fun u => Nat.one_pos,
   PoolReachable.init [0, 1, 2, 3] (by decide) (by decide),
   by decide, by decide,
   claim_C6 gPath s0 1 3 (fun u => Nat.one_pos)
     (PoolReachable.init [0, 1, 2, 3] (by decide) (by decide))
     (by decide) (by decide)⟩

/-- Claim C7: on any reachable state, the no-op move
`move_node(v, membership[v])` returns the state unchanged, every aggregate
and the empty pool included. -/
theorem claim_C7 (g : Graph) (s : Partition) (v : ℕ) (h : Reachable g s)
    (hv : v < g.n) :
    move_node g s v (s.membership.getD v 0) = s :=
  move_node_noop g s v
    (mem_own_community g s v (reachable_WF g s h) hv)
    (csize_ge_nodeSize g s v (reachable_WF g s h) hv)

theorem claim_C7_witness :
    Reachable gPath s0 ∧ 1 < gPath.n ∧
    move_node gPath s0 1 (s0.membership.getD 1 0) = s0 :=
  ⟨Reachable.init [0, 1, 2, 3] (by decide), by decide,
   claim_C7 gPath s0 1 (Reachable.init [0, 1, 2, 3] (by decide)) (by decide)⟩

/-- Claim C9: for a consistent cache direction and `c` below the vertex
count, a cold `weight_to_comm(v, c)` returns the direct recomputation (sum of
the weights of the outgoing incident edges of `v` landing in community `c`,
an undirected self-loop halved), `weight_from_comm` the incoming analogue,
and the warm cache (every repeated query for the same `v` in the same
direction) returns the same values without further state change. -/
theorem claim_C9 (g : Graph) (s : Partition) (v c : ℕ) (hc : c < g.n)
    (hokTo : CacheDirOK s.cached_weight_to_community s.cached_neigh_comms_to g.n)
    (hokFrom : CacheDirOK s.cached_weight_from_community s.cached_neigh_comms_from g.n)
    (hmemTo : ∀ ue ∈ g.neigh .modeOut v, s.membership.getD ue.1 0 < g.n)
    (hmemFrom : ∀ ue ∈ g.neigh .modeIn v, s.membership.getD ue.1 0 < g.n)
    (hmarkTo : s.current_node_cache_community_to ≠ v)
    (hmarkFrom : s.current_node_cache_community_from ≠ v) :
    ((weight_to_comm g s v c).1 =
        some (directWeight g s.membership v c (g.neigh .modeOut v)) ∧
      (∀ c2, c2 < g.n →
        (weight_to_comm g (weight_to_comm g s v c).2 v c2).1 =
          some (directWeight g s.membership v c2 (g.neigh .modeOut v)) ∧
        (weight_to_comm g (weight_to_comm g s v c).2 v c2).2 =
          (weight_to_comm g s v c).2)) ∧
    ((weight_from_comm g s v c).1 =
        some (directWeight g s.membership v c (g.neigh .modeIn v)) ∧
      (∀ c2, c2 < g.n →
        (weight_from_comm g (weight_from_comm g s v c).2 v c2).1 =
          some (directWeight g s.membership v c2 (g.neigh .modeIn v)) ∧
        (weight_from_comm g (weight_from_comm g s v c).2 v c2).2 =
          (weight_from_comm g s v c).2)) :=
  ⟨weight_to_comm_correct g s v c hc hokTo hmemTo hmarkTo,
   weight_from_comm_correct g s v c hc hokFrom hmemFrom hmarkFrom⟩

theorem claim_C9_witness :
    (1 < gPath.n) ∧
    CacheDirOK s0.cached_weight_to_community s0.cached_neigh_comms_to gPath.n ∧
    CacheDirOK s0.cached_weight_from_community s0.cached_neigh_comms_from gPath.n ∧
    (∀ ue ∈ gPath.neigh .modeOut 1, s0.membership.getD ue.1 0 < gPath.n) ∧
    (∀ ue ∈ gPath.neigh .modeIn 1, s0.membership.getD ue.1 0 < gPath.n) ∧
    s0.current_node_cache_community_to ≠ 1 ∧
    s0.current_node_cache_community_from ≠ 1 ∧
    (((weight_to_comm gPath s0 1 1).1 =
        some (directWeight gPath s0.membership 1 1 (gPath.neigh .modeOut 1)) ∧
      (∀ c2, c2 < gPath.n →
        (weight_to_comm gPath (weight_to_comm gPath s0 1 1).2 1 c2).1 =
          some (directWeight gPath s0.membership 1 c2 (gPath.neigh .modeOut 1)) ∧
        (weight_to_comm gPath (weight_to_comm gPath s0 1 1).2 1 c2).2 =
          (weight_to_comm gPath s0 1 1).2)) ∧
     ((weight_from_comm gPath s0 1 1).1 =
        some (directWeight gPath s0.membership 1 1 (gPath.neigh .modeIn 1)) ∧
      (∀ c2, c2 < gPath.n →
        (weight_from_comm gPath (weight_from_comm gPath s0 1 1).2 1 c2).1 =
          some (directWeight gPath s0.membership 1 c2 (gPath.neigh .modeIn 1)) ∧
        (weight_from_comm gPath (weight_from_comm gPath s0 1 1).2 1 c2).2 =
          (weight_from_comm gPath s0 1 1).2))) :=
  ⟨by decide, by decide, by decide, by decide, by decide, by decide, by decide,
   claim_C9 gPath s0 1 1 (by decide) (by decide) (by decide) (by decide)
     (by decide) (by decide) (by decide)⟩

/-- Claim C10, counterexample: construction imposes no cap on community ids
(`init_admin` sizes the slot vectors from the maximum id, not the vertex
count), so the allocated community id 5 of a 2-vertex graph is not a safe
cache-query argument: the unchecked read is out of bounds. -/
theorem claim_C10_counterexample :
    5 < sGap10.nb_communities ∧
    sGap10.cached_weight_to_community.length = gTwo.n ∧
    (weight_to_comm gTwo sGap10 0 5).1 = none := by decide

/-- Claim C10, amended: `init_admin` sizes the per-vertex weight caches to
exactly `vertex_count` entries; the unchecked cache reads are in bounds
(return a value) precisely when `c` is below the cache length; `csize` by
contrast returns 0 beyond its slots; and a successful `add_empty_community`
keeps the slot count at most `vertex_count` — but construction itself does
not cap the allocated ids (see the counterexample). -/
theorem claim_C10 (g : Graph) (s s2 : Partition) (m : List ℕ) (prev : Partition)
    (v c c2 cc : ℕ) :
    ((init_admin g m prev).cached_weight_to_community.length = g.n ∧
     (init_admin g m prev).cached_weight_from_community.length = g.n) ∧
    ((weight_to_comm g s v c).1.isSome = true ↔
      c < ((weight_to_comm g s v c).2).cached_weight_to_community.length) ∧
    ((weight_from_comm g s v c).1.isSome = true ↔
      c < ((weight_from_comm g s v c).2).cached_weight_from_community.length) ∧
    (s.csizes.length ≤ c2 → s.csize c2 = 0) ∧
    (add_empty_community g s = .ok (s2, cc) → s2.nb_communities ≤ g.n) := by
  refine ⟨⟨init_admin_cache_to_length g m prev, init_admin_cache_from_length g m prev⟩,
    ?_, ?_, csize_out_of_slots s c2, add_empty_ok_le g s s2 cc⟩
  · rw [weight_to_comm_fst_eq]
    exact isSome_getElemOpt _ c
  · rw [weight_from_comm_fst_eq]
    exact isSome_getElemOpt _ c

theorem claim_C10_witness :
    sOne.csizes.length ≤ 7 ∧
    add_empty_community gTwo sOne = .ok (sOneGrown, 1) ∧
    (((init_admin gTwo [0, 5] emptyPartition).cached_weight_to_community.length
        = gTwo.n ∧
      (init_admin gTwo [0, 5] emptyPartition).cached_weight_from_community.length
        = gTwo.n) ∧
     ((weight_to_comm gTwo sOne 0 0).1.isSome = true ↔
       0 < ((weight_to_comm gTwo sOne 0 0).2).cached_weight_to_community.length) ∧
     ((weight_from_comm gTwo sOne 0 0).1.isSome = true ↔
       0 < ((weight_from_comm gTwo sOne 0 0).2).cached_weight_from_community.length) ∧
     (sOne.csizes.length ≤ 7 → sOne.csize 7 = 0) ∧
     (add_empty_community gTwo sOne = .ok (sOneGrown, 1) →
       sOneGrown.nb_communities ≤ gTwo.n)) :=
  ⟨by decide, rfl,
   claim_C10 gTwo sOne sOneGrown [0, 5] emptyPartition 0 0 7 1⟩

/-! ## Renumbering: the id table and the sorted order -/

theorem foldl_setTbl_not_mem (L : List (ℕ × ℕ)) (k : ℕ) (init : List ℕ) (c : ℕ)
    (hc : c ∉ L.map Prod.snd) :
    ((L.enumFrom k).foldl (fun l q => l.set q.2.2 q.1) init).getD c 0 =
      init.getD c 0 := by
  induction L generalizing k init with
  | nil => rfl
  | cons p L ih =>
    rw [List.enumFrom_cons, List.foldl_cons]
    rw [ih (k + 1) (init.set p.2 k) (fun hmem => hc (List.mem_cons_of_mem _ hmem))]
    refine getD_set_ne init 0 k (fun hpc => hc ?_)
    rw [List.map_cons, hpc]
    exact List.mem_cons_self c _

theorem foldl_setTbl_get (L : List (ℕ × ℕ)) (k : ℕ) (init : List ℕ)
    (hnd : (L.map Prod.snd).Nodup) (j : ℕ) (hj : j < L.length)
    (hlt : (L.get ⟨j, hj⟩).2 < init.length) :
    ((L.enumFrom k).foldl (fun l q => l.set q.2.2 q.1) init).getD
      ((L.get ⟨j, hj⟩).2) 0 = k + j := by
  induction L generalizing k init j with
  | nil => exact absurd hj (by simp)
  | cons p L ih =>
    rw [List.map_cons, List.nodup_cons] at hnd
    rw [List.enumFrom_cons, List.foldl_cons]
    cases j with
    | zero =>
      show ((L.enumFrom (k + 1)).foldl (fun l q => l.set q.2.2 q.1)
        (init.set p.2 k)).getD p.2 0 = k + 0
      rw [foldl_setTbl_not_mem L (k + 1) (init.set p.2 k) p.2 hnd.1]
      rw [getD_set_self init p.2 0 k hlt]
      omega
    | succ j2 =>
      have hj2 : j2 < L.length := by simpa using hj
      have hlt2 : (L.get ⟨j2, hj2⟩).2 < (init.set p.2 k).length := by
        rw [List.length_set]
        exact hlt
      have h2 := ih (k + 1) (init.set p.2 k) hnd.2 j2 hj2 hlt2
      show ((L.enumFrom (k + 1)).foldl (fun l q => l.set q.2.2 q.1)
        (init.set p.2 k)).getD ((L.get ⟨j2, hj2⟩).2) 0 = k + (j2 + 1)
      rw [h2]
      omega

theorem newCommIdTable_getD (sorted : List (ℕ × ℕ)) (nb : ℕ)
    (hnd : (sorted.map Prod.snd).Nodup) (j : ℕ) (hj : j < sorted.length)
    (hlt : (sorted.get ⟨j, hj⟩).2 < nb) :
    (newCommIdTable sorted nb).getD ((sorted.get ⟨j, hj⟩).2) 0 = j := by
  unfold newCommIdTable
  show ((sorted.enumFrom 0).foldl (fun l q => l.set q.2.2 q.1)
    (List.replicate nb 0)).getD ((sorted.get ⟨j, hj⟩).2) 0 = j
  rw [foldl_setTbl_get sorted 0 (List.replicate nb 0) hnd j hj
    (by rwa [List.length_replicate])]
  omega

theorem sorted_pos_front (l : List (ℕ × ℕ))
    (hs : List.Sorted pairCompareReverseSecond l) :
    ∀ j (hj : j < l.length),
      (0 < (l.get ⟨j, hj⟩).1 ↔ j < (l.filter (fun p => 0 < p.1)).length) := by
  induction l with
  | nil =>
    intro j hj
    exact absurd hj (by simp)
  | cons x xs ih =>
    rw [List.sorted_cons] at hs
    intro j hj
    by_cases hx : 0 < x.1
    · rw [List.filter_cons_of_pos (by simpa using hx)]
      cases j with
      | zero => simpa using hx
      | succ j2 =>
        have hj2 : j2 < xs.length := by simpa using hj
        have h2 := ih hs.2 j2 hj2
        show 0 < (xs.get ⟨j2, hj2⟩).1 ↔ j2 + 1 < (xs.filter (fun p => 0 < p.1)).length + 1
        rw [h2]
        exact (Nat.succ_lt_succ_iff).symm
    · have hall : ∀ y ∈ xs, ¬ (0 < y.1) := by
        intro y hy hpos
        have hr := hs.1 y hy
        unfold pairCompareReverseSecond at hr
        rcases hr with hr | hr
        · exact hx (lt_trans hpos hr)
        · exact hx (hr.1 ▸ hpos)
      have hnone : xs.filter (fun p => 0 < p.1) = [] := by
        rw [List.filter_eq_nil_iff]
        intro y hy
        simpa using hall y hy
      rw [List.filter_cons_of_neg (by simpa using hx), hnone]
      simp only [List.length_nil]
      constructor
      · intro hpos
        exfalso
        cases j with
        | zero => exact hx hpos
        | succ j2 =>
          have hj2 : j2 < xs.length := by simpa using hj
          exact hall (xs.get ⟨j2, hj2⟩) (xs.get_mem _ _) hpos
      · intro hcon
        exact absurd hcon (Nat.not_lt_zero j)

/-- The (size, id) pair list `renumber_communities()` builds before sorting. -/
def commPairs (s : Partition) : List (ℕ × ℕ) :=
  (List.range s.nb_communities).map (fun i => (s.csize i, i))

/-- The sorted pair list of `renumber_communities()`. -/
def sortedPairs (s : Partition) : List (ℕ × ℕ) :=
  List.insertionSort pairCompareReverseSecond (commPairs s)

/-- The old-to-new id table of `renumber_communities()`. -/
def renumberTable (s : Partition) : List ℕ :=
  newCommIdTable (sortedPairs s) s.nb_communities

/-- The relabeled membership vector of `renumber_communities()`. -/
def renumberMembership (s : Partition) : List ℕ :=
  s.membership.map (fun c => (renumberTable s).getD c 0)

theorem renumber_communities_eq (g : Graph) (s : Partition) :
    renumber_communities g s = init_admin g (renumberMembership s) s := rfl

/-- The number of non-empty community slots of a state. -/
def nbNonEmpty (s : Partition) : ℕ :=
  ((List.range s.nb_communities).filter (fun c => 0 < s.csize c)).length

theorem sortedPairs_perm (s : Partition) : (sortedPairs s).Perm (commPairs s) :=
  List.perm_insertionSort _ _

theorem sortedPairs_sorted (s : Partition) :
    List.Sorted pairCompareReverseSecond (sortedPairs s) :=
  List.sorted_insertionSort _ _

theorem length_sortedPairs (s : Partition) :
    (sortedPairs s).length = s.nb_communities := by
  rw [(sortedPairs_perm s).length_eq]
  unfold commPairs
  rw [List.length_map, List.length_range]

theorem sortedPairs_snd_nodup (s : Partition) :
    ((sortedPairs s).map Prod.snd).Nodup := by
  have hp : ((sortedPairs s).map Prod.snd).Perm ((commPairs s).map Prod.snd) :=
    (sortedPairs_perm s).map _
  have he : (commPairs s).map Prod.snd = List.range s.nb_communities := by
    unfold commPairs
    rw [List.map_map]
    have hcomp : (Prod.snd ∘ fun i => ((s.csize i, i) : ℕ × ℕ)) = id := rfl
    rw [hcomp, List.map_id]
  rw [hp.nodup_iff, he]
  exact List.nodup_range _

theorem mem_commPairs (s : Partition) (p : ℕ × ℕ) :
    p ∈ commPairs s ↔ p.2 < s.nb_communities ∧ p.1 = s.csize p.2 := by
  unfold commPairs
  rw [List.mem_map]
  constructor
  · rintro ⟨i, hi, rfl⟩
    exact ⟨by simpa using hi, rfl⟩
  · rintro ⟨h2, h1⟩
    exact ⟨p.2, by simpa using h2, Prod.ext h1.symm rfl⟩

theorem mem_sortedPairs (s : Partition) (p : ℕ × ℕ) :
    p ∈ sortedPairs s ↔ p.2 < s.nb_communities ∧ p.1 = s.csize p.2 := by
  rw [(sortedPairs_perm s).mem_iff, mem_commPairs]

theorem sortedPairs_filter_length (s : Partition) :
    ((sortedPairs s).filter (fun p => 0 < p.1)).length = nbNonEmpty s := by
  have hp := ((sortedPairs_perm s).filter (fun p => decide (0 < p.1)))
  rw [hp.length_eq]
  unfold commPairs nbNonEmpty
  rw [List.filter_map, List.length_map]
  rfl

theorem getD_eq_get {α : Type} (l : List α) (d : α) (i : Fin l.length) :
    l.getD i.val d = l.get i := by
  rcases i with ⟨v, hv⟩
  induction l generalizing v with
  | nil => exact absurd hv (by simp)
  | cons x xs ih =>
    cases v with
    | zero => rfl
    | succ j => exact ih j (by simpa using hv)

theorem getD_map_nat (f : ℕ → ℕ) (l : List ℕ) (v : ℕ) (hv : v < l.length) :
    (l.map f).getD v 0 = f (l.getD v 0) := by
  induction l generalizing v with
  | nil => exact absurd hv (by simp)
  | cons x xs ih =>
    cases v with
    | zero => rfl
    | succ j => exact ih j (by simpa using hv)

theorem renumberTable_getD_fin (s : Partition) (j : Fin (sortedPairs s).length) :
    (renumberTable s).getD (((sortedPairs s).get j).2) 0 = j.val :=
  newCommIdTable_getD (sortedPairs s) s.nb_communities (sortedPairs_snd_nodup s)
    j.val j.2 ((mem_sortedPairs s _).1 (List.get_mem _ _ _)).1

theorem exists_sortedPairs_index (s : Partition) (c : ℕ)
    (hc : c < s.nb_communities) :
    ∃ j : Fin (sortedPairs s).length, (sortedPairs s).get j = (s.csize c, c) :=
  List.mem_iff_get.1 ((mem_sortedPairs s _).2 ⟨hc, rfl⟩)

theorem renumberTable_spec (s : Partition) (c : ℕ) (hc : c < s.nb_communities) :
    ∃ j : Fin (sortedPairs s).length,
      (sortedPairs s).get j = (s.csize c, c) ∧
      (renumberTable s).getD c 0 = j.val := by
  obtain ⟨j, hj⟩ := exists_sortedPairs_index s c hc
  refine ⟨j, hj, ?_⟩
  have h2 := renumberTable_getD_fin s j
  rw [hj] at h2
  exact h2

/-- The full correctness of the argumentless `renumber_communities()` on a
well-formed state with positive node sizes: the new ids are exactly
`0 .. nbNonEmpty - 1`, every remaining slot is non-empty, sizes are
non-increasing in id order with ties broken by original id, and the vertex
partition (equivalence classes of membership) is unchanged. -/
theorem renumber_master (g : Graph) (s : Partition) (hWF : WF g s)
    (hpos : ∀ u, 0 < g.nodeSize u) :
    (renumber_communities g s).nb_communities = nbNonEmpty s ∧
    (∀ j, j < nbNonEmpty s → 0 < (renumber_communities g s).csize j) ∧
    (∀ j1 j2, j1 ≤ j2 → j2 < nbNonEmpty s →
      (renumber_communities g s).csize j2 ≤ (renumber_communities g s).csize j1) ∧
    (∀ u w, u < g.n → w < g.n →
      ((renumber_communities g s).membership.getD u 0 =
          (renumber_communities g s).membership.getD w 0 ↔
        s.membership.getD u 0 = s.membership.getD w 0)) ∧
    (∀ u w, u < g.n → w < g.n →
      s.csize (s.membership.getD u 0) = s.csize (s.membership.getD w 0) →
      s.membership.getD u 0 < s.membership.getD w 0 →
      (renumber_communities g s).membership.getD u 0 <
        (renumber_communities g s).membership.getD w 0) := by
  obtain ⟨hm_len, hcs_len, hm_lt, hcomm, hcsz⟩ := hWF
  have hk_le : nbNonEmpty s ≤ s.nb_communities := by
    unfold nbNonEmpty
    refine le_trans (List.length_filter_le _ _) ?_
    rw [List.length_range]
  have hslen := length_sortedPairs s
  have hm_ltn : ∀ v, v < g.n → s.membership.getD v 0 < s.nb_communities := hm_lt
  have hpos_c : ∀ v, v < g.n → 0 < s.csize (s.membership.getD v 0) := by
    intro v hv
    have h1 := csize_ge_nodeSize g s v ⟨hm_len, hcs_len, hm_lt, hcomm, hcsz⟩ hv
    have h2 := hpos v
    show 0 < s.csizes.getD (s.membership.getD v 0) 0
    omega
  have hfront : ∀ j (hj : j < (sortedPairs s).length),
      (0 < ((sortedPairs s).get ⟨j, hj⟩).1 ↔ j < nbNonEmpty s) := by
    intro j hj
    rw [← sortedPairs_filter_length s]
    exact sorted_pos_front (sortedPairs s) (sortedPairs_sorted s) j hj
  have htbl_lt : ∀ c, c < s.nb_communities → 0 < s.csize c →
      (renumberTable s).getD c 0 < nbNonEmpty s := by
    intro c hc hpc
    obtain ⟨j, hjget, hjval⟩ := renumberTable_spec s c hc
    rw [hjval]
    refine (hfront j.val j.2).1 ?_
    show 0 < ((sortedPairs s).get j).1
    rw [hjget]
    exact hpc
  have hm2len : (renumberMembership s).length = g.n := by
    unfold renumberMembership
    rw [List.length_map]
    exact hm_len
  have hm2 : ∀ v, v < g.n → (renumberMembership s).getD v 0 =
      (renumberTable s).getD (s.membership.getD v 0) 0 := by
    intro v hv
    unfold renumberMembership
    exact getD_map_nat _ _ v (by rw [hm_len]; exact hv)
  have hm2_lt : ∀ v, v < g.n →
      (renumberMembership s).getD v 0 < nbNonEmpty s := by
    intro v hv
    rw [hm2 v hv]
    exact htbl_lt _ (hm_ltn v hv) (hpos_c v hv)
  have hsurj : ∀ j, j < nbNonEmpty s → ∃ v, v < g.n ∧
      (renumberMembership s).getD v 0 = j := by
    intro j hjk
    have hjlen : j < (sortedPairs s).length := by
      rw [hslen]
      omega
    have hjpos : 0 < ((sortedPairs s).get ⟨j, hjlen⟩).1 := (hfront j hjlen).2 hjk
    obtain ⟨hc2, hc1⟩ :=
      (mem_sortedPairs s _).1 (List.get_mem (sortedPairs s) j hjlen)
    have hpc : 0 < s.csizes.getD (((sortedPairs s).get ⟨j, hjlen⟩).2) 0 := by
      have h0 : 0 < s.csize (((sortedPairs s).get ⟨j, hjlen⟩).2) := hc1 ▸ hjpos
      exact h0
    have hcz := hcsz _ hc2
    rw [hcz] at hpc
    have hne : (s.community.getD (((sortedPairs s).get ⟨j, hjlen⟩).2) ∅).Nonempty := by
      by_contra hcon
      rw [Finset.not_nonempty_iff_eq_empty] at hcon
      rw [hcon] at hpc
      simp at hpc
    obtain ⟨v, hvmem⟩ := hne
    rw [hcomm _ hc2] at hvmem
    rw [Finset.mem_filter, Finset.mem_range] at hvmem
    refine ⟨v, hvmem.1, ?_⟩
    rw [hm2 v hvmem.1, hvmem.2]
    exact renumberTable_getD_fin s ⟨j, hjlen⟩
  have hnbc : nbComms (renumberMembership s) = nbNonEmpty s := by
    refine Nat.le_antisymm ?_ ?_
    · rw [nbComms_le_iff]
      intro x hx
      obtain ⟨i, hi⟩ := List.mem_iff_get.1 hx
      have := hm2_lt i.val (by rw [← hm2len]; exact i.2)
      rw [getD_eq_get _ 0 i, hi] at this
      exact this
    · rcases hk0 : nbNonEmpty s with _ | k2
      · exact Nat.zero_le _
      · obtain ⟨v, hv, hveq⟩ := hsurj k2 (by omega)
        have := @getD_lt_nbComms (renumberMembership s) v
          (by rw [hm2len]; exact hv)
        rw [hveq] at this
        omega
  have hrnb : (renumber_communities g s).nb_communities = nbNonEmpty s := by
    rw [renumber_communities_eq]
    show (initCommunity (renumberMembership s) g.n
      (nbComms (renumberMembership s))).length = _
    rw [length_initCommunity, hnbc]
  have hrmem : ∀ u, u < g.n → (renumber_communities g s).membership.getD u 0 =
      (renumberTable s).getD (s.membership.getD u 0) 0 := by
    intro u hu
    rw [renumber_communities_eq, init_admin_membership]
    exact hm2 u hu
  have hrcsize : ∀ (j : Fin (sortedPairs s).length), j.val < nbNonEmpty s →
      (renumber_communities g s).csize j.val = ((sortedPairs s).get j).1 := by
    intro j hjk
    have hjnb : j.val < nbComms (renumberMembership s) := by
      rw [hnbc]
      exact hjk
    have h1 : (renumber_communities g s).csize j.val =
        ∑ v ∈ (Finset.range g.n).filter
          (fun v => (renumberMembership s).getD v 0 = j.val), g.nodeSize v := by
      rw [renumber_communities_eq]
      show (initCsize g (renumberMembership s)
        (nbComms (renumberMembership s))).getD j.val 0 = _
      exact getD_initCsize g _ _ j.val hjnb
    have hfeq : ∀ v, v < g.n →
        ((renumberMembership s).getD v 0 = j.val ↔
          s.membership.getD v 0 = ((sortedPairs s).get j).2) := by
      intro v hv
      rw [hm2 v hv]
      constructor
      · intro heq
        obtain ⟨j2, hj2get, hj2val⟩ := renumberTable_spec s _ (hm_ltn v hv)
        rw [hj2val] at heq
        have hjj : j2 = j := Fin.ext heq
        rw [← hjj, hj2get]
      · intro heq
        rw [heq]
        exact renumberTable_getD_fin s j
    have h2 : (Finset.range g.n).filter
        (fun v => (renumberMembership s).getD v 0 = j.val) =
        (Finset.range g.n).filter
          (fun v => s.membership.getD v 0 = ((sortedPairs s).get j).2) := by
      ext v
      simp only [Finset.mem_filter, Finset.mem_range]
      constructor
      · rintro ⟨hv, hveq⟩
        exact ⟨hv, (hfeq v hv).1 hveq⟩
      · rintro ⟨hv, hveq⟩
        exact ⟨hv, (hfeq v hv).2 hveq⟩
    obtain ⟨hc2, hc1⟩ :=
      (mem_sortedPairs s _).1 (List.get_mem (sortedPairs s) j.val j.2)
    have h3 : ∑ v ∈ (Finset.range g.n).filter
        (fun v => s.membership.getD v 0 = ((sortedPairs s).get j).2), g.nodeSize v =
        s.csizes.getD (((sortedPairs s).get j).2) 0 := by
      rw [hcsz _ hc2, hcomm _ hc2]
    rw [h1, h2, h3]
    exact hc1.symm
  refine ⟨hrnb, ?_, ?_, ?_, ?_⟩
  · intro j hjk
    have hjlen : j < (sortedPairs s).length := by
      rw [hslen]
      omega
    rw [hrcsize ⟨j, hjlen⟩ hjk]
    exact (hfront j hjlen).2 hjk
  · intro j1 j2 h12 hjk2
    have hjlen1 : j1 < (sortedPairs s).length := by
      rw [hslen]
      omega
    have hjlen2 : j2 < (sortedPairs s).length := by
      rw [hslen]
      omega
    rw [hrcsize ⟨j1, hjlen1⟩ (by exact Nat.lt_of_le_of_lt h12 hjk2),
      hrcsize ⟨j2, hjlen2⟩ hjk2]
    rcases Nat.lt_or_ge j1 j2 with hlt | hge
    · have hrel : pairCompareReverseSecond ((sortedPairs s).get ⟨j1, hjlen1⟩)
          ((sortedPairs s).get ⟨j2, hjlen2⟩) :=
        (sortedPairs_sorted s).rel_get_of_lt (by exact hlt)
      unfold pairCompareReverseSecond at hrel
      rcases hrel with hrel | hrel
      · omega
      · omega
    · have hjj : j1 = j2 := by omega
      subst hjj
      exact le_refl _
  · intro u w hu hw
    rw [hrmem u hu, hrmem w hw]
    constructor
    · intro heq
      obtain ⟨ju, hjuget, hjuval⟩ := renumberTable_spec s _ (hm_ltn u hu)
      obtain ⟨jw, hjwget, hjwval⟩ := renumberTable_spec s _ (hm_ltn w hw)
      rw [hjuval, hjwval] at heq
      have hjj : ju = jw := Fin.ext heq
      have hpair : ((s.csize (s.membership.getD u 0), s.membership.getD u 0) : ℕ × ℕ) =
          (s.csize (s.membership.getD w 0), s.membership.getD w 0) := by
        rw [← hjuget, ← hjwget, hjj]
      exact congrArg Prod.snd hpair
    · intro heq
      rw [heq]
  · intro u w hu hw hsize hlt
    rw [hrmem u hu, hrmem w hw]
    obtain ⟨ju, hjuget, hjuval⟩ := renumberTable_spec s _ (hm_ltn u hu)
    obtain ⟨jw, hjwget, hjwval⟩ := renumberTable_spec s _ (hm_ltn w hw)
    rw [hjuval, hjwval]
    have hne : ju ≠ jw := by
      intro hjj
      rw [hjj] at hjuget
      rw [hjuget] at hjwget
      have := congrArg Prod.snd hjwget
      simp only at this
      omega
    rcases Nat.lt_or_ge ju.val jw.val with hvlt | hvge
    · exact hvlt
    · have hvlt2 : jw.val < ju.val := by
        rcases Nat.eq_or_lt_of_le hvge with heq | hlt2
        · exact absurd (Fin.ext heq.symm) hne
        · exact hlt2
      have hrel : pairCompareReverseSecond ((sortedPairs s).get jw)
          ((sortedPairs s).get ju) :=
        (sortedPairs_sorted s).rel_get_of_lt (by exact Fin.lt_def.2 hvlt2)
      rw [hjuget, hjwget] at hrel
      unfold pairCompareReverseSecond at hrel
      simp only at hrel
      rcases hrel with hrel | hrel
      · omega
      · omega

/-- A 2-vertex edgeless graph whose second vertex has node size zero (the
spec only requires node sizes to be nonnegative). -/
def gZero : Graph where
  n := 2
  directed := false
  nodeSize := fun v => if v = 0 then 1 else 0
  edgeWeight := fun _ => 1
  neighOut := fun _ => []
  neighIn := fun _ => []
  neighAll := fun _ => []

/-- The state of `gZero` built from membership `[0, 2]`: the zero-size vertex
keeps community 2 populated as a set while its size reads 0. -/
def sZero : Partition := init_admin gZero [0, 2] emptyPartition

/-- Claim C8, counterexample: on the reachable state `sZero` there is exactly
one non-empty community (k = 1), yet after `renumber_communities()` three ids
remain in use and the allocated slot 1 still has size zero — the ids are not
`0 .. k-1` and an empty slot survives, because a zero-size vertex keeps its
community at the back of the size order without it being dropped. -/
theorem claim_C8_counterexample :
    Reachable gZero sZero ∧ nbNonEmpty sZero = 1 ∧
    (renumber_communities gZero sZero).nb_communities = 3 ∧
    (renumber_communities gZero sZero).csize 1 = 0 :=
  ⟨Reachable.init [0, 2] (by decide), by decide, by decide, by decide⟩

/-- Claim C8, amended: on a reachable state of a graph whose node sizes are
all positive, the argumentless `renumber_communities()` leaves exactly the
ids `0 .. nbNonEmpty - 1` in use (no empty slots remain), community sizes
are non-increasing in the new id order with ties broken by the original id
order, and the new membership induces the same equivalence classes on
vertices as the old one. -/
theorem claim_C8 (g : Graph) (s : Partition) (h : Reachable g s)
    (hpos : ∀ u, 0 < g.nodeSize u) :
    (renumber_communities g s).nb_communities = nbNonEmpty s ∧
    (∀ j, j < nbNonEmpty s → 0 < (renumber_communities g s).csize j) ∧
    (∀ j1 j2, j1 ≤ j2 → j2 < nbNonEmpty s →
      (renumber_communities g s).csize j2 ≤ (renumber_communities g s).csize j1) ∧
    (∀ u w, u < g.n → w < g.n →
      ((renumber_communities g s).membership.getD u 0 =
          (renumber_communities g s).membership.getD w 0 ↔
        s.membership.getD u 0 = s.membership.getD w 0)) ∧
    (∀ u w, u < g.n → w < g.n →
      s.csize (s.membership.getD u 0) = s.csize (s.membership.getD w 0) →
      s.membership.getD u 0 < s.membership.getD w 0 →
      (renumber_communities g s).membership.getD u 0 <
        (renumber_communities g s).membership.getD w 0) :=
  renumber_master g s (reachable_WF g s h) hpos

/-- The path-graph state with vertex 1 moved into community 0 (slot 1 empty). -/
def sMoved : Partition := move_node gPath s0 1 0

theorem claim_C8_witness :
    Reachable gPath sMoved ∧ (∀ u, 0 < gPath.nodeSize u) ∧
    ((renumber_communities gPath sMoved).nb_communities = nbNonEmpty sMoved ∧
     (∀ j, j < nbNonEmpty sMoved →
       0 < (renumber_communities gPath sMoved).csize j) ∧
     (∀ j1 j2, j1 ≤ j2 → j2 < nbNonEmpty sMoved →
       (renumber_communities gPath sMoved).csize j2 ≤
         (renumber_communities gPath sMoved).csize j1) ∧
     (∀ u w, u < gPath.n → w < gPath.n →
       ((renumber_communities gPath sMoved).membership.getD u 0 =
           (renumber_communities gPath sMoved).membership.getD w 0 ↔
         sMoved.membership.getD u 0 = sMoved.membership.getD w 0)) ∧
     (∀ u w, u < gPath.n → w < gPath.n →
       sMoved.csize (sMoved.membership.getD u 0) =
         sMoved.csize (sMoved.membership.getD w 0) →
       sMoved.membership.getD u 0 < sMoved.membership.getD w 0 →
       (renumber_communities gPath sMoved).membership.getD u 0 <
         (renumber_communities gPath sMoved).membership.getD w 0)) :=
  ⟨Reachable.move s0 1 0 (Reachable.init [0, 1, 2, 3] (by decide))
      (by decide) (by decide),
   fun u => Nat.one_pos,
   claim_C8 gPath sMoved
     (Reachable.move s0 1 0 (Reachable.init [0, 1, 2, 3] (by decide))
       (by decide) (by decide))
     (fun u => Nat.one_pos)⟩

end LeidenSpec






